import Mathlib

/-!
Verification of the yves activity-summarization system.

This file gives a shallow embedding, in Lean 4, of the core algorithms of the
repository:

* `src/lib/llm.py` — log reading, timestamp merge, token-bounded chunking;
* `src/src/lib/llm_summarizer.py` — the daily summarization pipeline;
* `src/src/lib/file_system_watcher.py` — diff generation, major-change
  classification, change scanning;
* `src/src/lib/tmux_watcher.py` — completed-command scraping;
* the parts of Python's `difflib` (`SequenceMatcher`, `unified_diff`) that
  `file_system_watcher.py` calls.

Python dicts/JSON values are modelled by the inductive type `Json`; machine
integers are `Nat`/`Int` (the quantities involved are small and exact);
Python floats that always hold integer values (the token estimates) are
modelled as `Nat`, and the similarity ratio is modelled in `ℚ` (the exact
value of `2*M/T`); fallible code returns `Option`/`Except`.  External
effects (the file system, the tmux server, the LLM provider) are passed in
as explicit state/oracle parameters.
-/

namespace Yves

/-! ### A model of JSON values and `json.dumps`

Events in the two logs are JSON values.  `json.dumps(..., ensure_ascii=False)`
with the default separators `', '` and `': '` is modelled by `dumps`.
-/

/-- JSON values, the shape of the events held in the log files. -/
inductive Json where
  | null : Json
  | bool : Bool → Json
  | num  : Int → Json
  | str  : String → Json
  | arr  : List Json → Json
  | obj  : List (String × Json) → Json

/-- Fuel-driven digit expansion; with fuel above the digit count it renders
`n` in decimal.  Structural recursion on the fuel keeps every rendering
kernel-reducible. -/
def natReprGo : Nat → Nat → String
  | 0, _ => ""
  | fuel + 1, n =>
    if n < 10 then String.singleton (Char.ofNat (48 + n))
    else natReprGo fuel (n / 10) ++ String.singleton (Char.ofNat (48 + n % 10))

/-- Decimal rendering of a natural number (Python's `str(int)` for
nonnegative values); `n` itself is always enough fuel. -/
def natRepr (n : Nat) : String :=
  natReprGo (n + 1) n

/-- Decimal rendering of an integer (Python's `str(int)`). -/
def intRepr : Int → String
  | Int.ofNat n => natRepr n
  | Int.negSucc n => "-" ++ natRepr (n + 1)

/-- Hexadecimal digit, lower case. -/
def hexDigit (n : Nat) : Char :=
  if n < 10 then Char.ofNat (48 + n) else Char.ofNat (87 + n)

/-- JSON escaping of one character, as `json.dumps` with `ensure_ascii=False`
performs it: `"` and `\` are escaped, control characters below `0x20` get
their short or `\u00XX` escapes, everything else is passed through. -/
def escapeChar (c : Char) : String :=
  if c = '"' then "\\\""
  else if c = '\\' then "\\\\"
  else if c = '\n' then "\\n"
  else if c = '\t' then "\\t"
  else if c = '\r' then "\\r"
  else if c = Char.ofNat 8 then "\\b"
  else if c = Char.ofNat 12 then "\\f"
  else if c.toNat < 32 then
    "\\u00" ++ String.singleton (hexDigit (c.toNat / 16)) ++ String.singleton (hexDigit (c.toNat % 16))
  else String.singleton c

/-- JSON string literal rendering. -/
def dumpsStr (s : String) : String :=
  "\"" ++ String.join (s.toList.map escapeChar) ++ "\""

mutual

/-- Model of `json.dumps(value, ensure_ascii=False)` with the default
separators `', '` and `': '` (no `indent`). -/
def dumps : Json → String
  | Json.null => "null"
  | Json.bool true => "true"
  | Json.bool false => "false"
  | Json.num n => intRepr n
  | Json.str s => dumpsStr s
  | Json.arr l => "[" ++ dumpsArrItems l ++ "]"
  | Json.obj l => "\x7b" ++ dumpsObjItems l ++ "\x7d"

/-- Comma-separated rendering of array elements. -/
def dumpsArrItems : List Json → String
  | [] => ""
  | [x] => dumps x
  | x :: xs => dumps x ++ ", " ++ dumpsArrItems xs

/-- Comma-separated rendering of object members. -/
def dumpsObjItems : List (String × Json) → String
  | [] => ""
  | [(k, v)] => dumpsStr k ++ ": " ++ dumps v
  | (k, v) :: xs => dumpsStr k ++ ": " ++ dumps v ++ ", " ++ dumpsObjItems xs

end

/-! ### The token-bounded chunker, `split_json_by_token_limit`

From `src/lib/llm.py`.  The Python function receives the serialized merged
log, parses it back with `json.loads`, packs the parsed items greedily, and
serializes each chunk again with `json.dumps`.  We work on the parsed list
of items directly (for JSON produced by `json.dumps`, `json.loads` is its
inverse); a chunk is the list of items it holds, and its serialized form is
`dumps (Json.arr chunk)`.
-/

/-- Count of maximal non-whitespace runs in a character list; the flag says
whether the previous character was inside a word. -/
def wordCountAux : List Char → Bool → Nat
  | [], _ => 0
  | c :: cs, inWord =>
    if c.isWhitespace then wordCountAux cs false
    else (if inWord then 0 else 1) + wordCountAux cs true

/-- Number of whitespace-delimited words of a string: the length of
Python's `s.split()`. -/
def wordCount (s : String) : Nat :=
  wordCountAux s.toList false

/-- Token estimate of one item: the code computes
`len(item_str.split()) // 3.5` where `item_str = json.dumps(item,
ensure_ascii=False)`.  Floor division of a `Nat` by `3.5` is exactly
`(2 * n) / 7` in `Nat` arithmetic. -/
def itemTokens (item : Json) : Nat :=
  2 * wordCount (dumps item) / 7

/-- Token estimate that the comment in `split_json_by_token_limit` ("Rough
estimate: 1 token ≈ 3.5 characters") and the specification (§4.4,
`len(serialized_event) / chars_per_token_constant`) describe: the number of
characters of the serialized item divided by 3.5. -/
def itemTokensSpec (item : Json) : Nat :=
  2 * (dumps item).length / 7

/-- Main loop of `split_json_by_token_limit`: greedy packing of `items`
into chunks, carrying the current chunk and its token count.  When
`current_tokens + item_tokens > token_limit` the current chunk is sealed
(even when it is empty) and a new one starts with the item; at the end a
non-empty current chunk is appended. -/
def splitGo (token_limit : Nat) : List Json → List Json → Nat → List (List Json)
  | [], current, _ => if current.isEmpty then [] else [current]
  | item :: rest, current, current_tokens =>
    let t := itemTokens item
    if current_tokens + t > token_limit then
      current :: splitGo token_limit rest [item] t
    else
      splitGo token_limit rest (current ++ [item]) (current_tokens + t)

/-- Model of `split_json_by_token_limit` from `src/lib/llm.py`, on the
parsed list of items.  The source parses its string argument (returning `[]`
when it is malformed, a case that cannot arise for the serialized merge
output) and serializes each returned chunk; both ends of that
parse/serialize boundary are represented here by the item lists. -/
def split_json_by_token_limit (items : List Json) (token_limit : Nat) : List (List Json) :=
  splitGo token_limit items [] 0

/-! ### Properties of the chunker -/

/-- Concatenating the chunks produced by the packing loop yields the pending
current chunk followed by the remaining items. -/
theorem splitGo_flatten (limit : Nat) :
    ∀ (rest current : List Json) (tok : Nat),
      (splitGo limit rest current tok).flatten = current ++ rest := by
  intro rest
  induction rest with
  | nil =>
    intro current tok
    by_cases h : current.isEmpty
    · simp [splitGo, h, List.isEmpty_iff.mp h]
    · simp [splitGo, h]
  | cons item rest ih =>
    intro current tok
    by_cases h : tok + itemTokens item > limit
    · simp [splitGo, h, ih]
    · simp [splitGo, h, ih]

/-- Invariant-carrying form of the oversized-item property: if every
oversized member of the current chunk is alone in it, the same holds for
every chunk the loop emits. -/
theorem splitGo_oversized (limit : Nat) :
    ∀ (rest current : List Json) (tok : Nat),
      tok = (current.map itemTokens).sum →
      (∀ y ∈ current, limit < itemTokens y → current = [y]) →
      ∀ c ∈ splitGo limit rest current tok, ∀ x ∈ c, limit < itemTokens x → c = [x] := by
  intro rest
  induction rest with
  | nil =>
    intro current tok _ hcur c hc x hx hbig
    by_cases h : current.isEmpty
    · simp [splitGo, h] at hc
    · simp [splitGo, h] at hc
      exact hc ▸ hcur x (hc ▸ hx) hbig
  | cons item rest ih =>
    intro current tok htok hcur c hc x hx hbig
    by_cases h : tok + itemTokens item > limit
    · rw [splitGo, if_pos h] at hc
      rcases List.mem_cons.mp hc with hceq | hcrest
      · exact hceq ▸ hcur x (hceq ▸ hx) hbig
      · exact ih [item] (itemTokens item) (by simp)
          (by intro y hy _; simp at hy; simp [hy]) c hcrest x hx hbig
    · rw [splitGo, if_neg h] at hc
      push_neg at h
      refine ih (current ++ [item]) (tok + itemTokens item) (by simp [htok]) ?_ c hc x hx hbig
      intro y hy hybig
      rcases List.mem_append.mp hy with hyc | hyi
      · have hsing := hcur y hyc hybig
        rw [hsing] at htok
        simp at htok
        omega
      · simp at hyi
        subst hyi
        omega

/-- Packing `n` further copies of an item of estimate `T` with limit `T`,
with one copy already pending, seals each copy into its own chunk. -/
theorem splitGo_replicate (x : Json) (T : Nat) (hT : itemTokens x = T) (hpos : 0 < T) :
    ∀ n : Nat, splitGo T (List.replicate n x) [x] T = List.replicate (n + 1) [x] := by
  intro n
  induction n with
  | zero => simp [splitGo]
  | succ n ih =>
    have hgt : T + T > T := by omega
    simp only [List.replicate_succ, splitGo, hT, if_pos hgt, ih]

/-- Claim C3: for every input event list and every token limit, every input
event appears in exactly one output chunk, chunks are contiguous and in the
original order (concatenating all chunks' item lists reproduces the input
list exactly), any chunk containing an event whose own estimate exceeds the
limit is that event's singleton chunk, and splitting `n` identical items of
estimated size `T` each with limit `T` (positive) yields exactly `n` chunks
of one item each. -/
theorem claim_C3_chunker_invariants :
    (∀ (items : List Json) (limit : Nat),
        (split_json_by_token_limit items limit).flatten = items)
  ∧ (∀ (items : List Json) (limit : Nat),
        ∀ c ∈ split_json_by_token_limit items limit,
          ∀ x ∈ c, limit < itemTokens x → c = [x])
  ∧ (∀ (x : Json) (n T : Nat), itemTokens x = T → 0 < T →
        split_json_by_token_limit (List.replicate n x) T = List.replicate n [x]) := by
  refine ⟨?_, ?_, ?_⟩
  · intro items limit
    simp [split_json_by_token_limit, splitGo_flatten]
  · intro items limit c hc x hx hbig
    exact splitGo_oversized limit items [] 0 (by simp) (by simp) c hc x hx hbig
  · intro x n T hT hpos
    cases n with
    | zero => simp [split_json_by_token_limit, splitGo]
    | succ n =>
      have hle : ¬ (0 + itemTokens x > T) := by omega
      simp only [split_json_by_token_limit, List.replicate_succ, splitGo, if_neg hle, hT,
        List.nil_append, Nat.zero_add]
      simpa [List.replicate_succ] using splitGo_replicate x T hT hpos n

/-! ### Log reading and the timestamp merge, `read_json_log` and
`merge_logs_by_timestamp`

From `src/lib/llm.py`.  `read_json_log` opens the file and parses it,
catching only `json.JSONDecodeError`; a missing file makes `open` raise
`FileNotFoundError`, which propagates.  The three possible observations of
a log file on disk are modelled by `LogFileRead`, and raising by `Except`.
-/

/-- Observation of a log file on disk: the file may be missing (`open`
raises `FileNotFoundError`), hold malformed JSON (`json.load` raises
`json.JSONDecodeError`) or parse to a list of events. -/
inductive LogFileRead where
  | missing : LogFileRead
  | malformed : LogFileRead
  | parsed : List Json → LogFileRead

/-- Model of `read_json_log`: the `try` block catches only
`JSONDecodeError` (returning `[]`); a missing file raises. -/
def read_json_log : LogFileRead → Except String (List Json)
  | LogFileRead.missing => Except.error "FileNotFoundError"
  | LogFileRead.malformed => Except.ok []
  | LogFileRead.parsed events => Except.ok events

/-- Sort key of one event: `event.get("timestamp", 0)`.  Events are JSON
objects; a missing `timestamp` member defaults to `0`.  (A `timestamp`
holding a non-integer would make Python's sort compare mixed types and is
outside the data model, whose timestamps are unix seconds.) -/
def sortKey (e : Json) : Int :=
  match e with
  | Json.obj members =>
    match members.lookup "timestamp" with
    | some (Json.num n) => n
    | _ => 0
  | _ => 0

/-- Stable insertion of `x` after every element whose key is `≤` its own:
the building block of a stable sort by `sortKey`. -/
def insertByTimestamp (x : Json) : List Json → List Json
  | [] => [x]
  | y :: ys =>
    if sortKey y ≤ sortKey x then y :: insertByTimestamp x ys
    else x :: y :: ys

/-- Stable sort of events by `sortKey` ascending, modelling Python's
`list.sort(key=lambda event: event.get("timestamp", 0))` (Timsort is
stable; every stable sort by the same key computes the same list). -/
def sortByTimestamp (l : List Json) : List Json :=
  l.foldl (fun acc x => insertByTimestamp x acc) []

/-- Model of `merge_logs_by_timestamp`: read both logs (either read may
raise), concatenate tmux events then filesystem events, and stable-sort by
timestamp.  The source then serializes the result with
`json.dumps(..., ensure_ascii=False, indent=0)`; we return the event
list holding that serialization's content. -/
def merge_logs_by_timestamp (tmux_log fs_log : LogFileRead) :
    Except String (List Json) := do
  let tmux_events ← read_json_log tmux_log
  let fs_events ← read_json_log fs_log
  pure (sortByTimestamp (tmux_events ++ fs_events))

/-! ### Properties of the merge -/

/-- Elements of an event list with a given sort key, in order. -/
def filterKey (k : Int) (l : List Json) : List Json :=
  l.filter (fun e => sortKey e = k)

/-- Members of an insertion are the inserted element or members of the
original list. -/
theorem mem_insertByTimestamp {x a : Json} :
    ∀ {l : List Json}, a ∈ insertByTimestamp x l → a = x ∨ a ∈ l := by
  intro l
  induction l with
  | nil =>
    intro h
    simp [insertByTimestamp] at h
    exact Or.inl h
  | cons y ys ih =>
    intro h
    by_cases hle : sortKey y ≤ sortKey x
    · rw [insertByTimestamp, if_pos hle] at h
      rcases List.mem_cons.mp h with rfl | h'
      · exact Or.inr (List.Mem.head _)
      · rcases ih h' with h1 | h2
        · exact Or.inl h1
        · exact Or.inr (List.Mem.tail _ h2)
    · rw [insertByTimestamp, if_neg hle] at h
      rcases List.mem_cons.mp h with rfl | h'
      · exact Or.inl rfl
      · exact Or.inr h'

/-- Insertion preserves sortedness by `sortKey`. -/
theorem insertByTimestamp_sorted (x : Json) :
    ∀ l : List Json, l.Pairwise (fun a b => sortKey a ≤ sortKey b) →
      (insertByTimestamp x l).Pairwise (fun a b => sortKey a ≤ sortKey b) := by
  intro l
  induction l with
  | nil => intro _; simp [insertByTimestamp]
  | cons y ys ih =>
    intro h
    rw [List.pairwise_cons] at h
    by_cases hle : sortKey y ≤ sortKey x
    · rw [insertByTimestamp, if_pos hle, List.pairwise_cons]
      refine ⟨?_, ih h.2⟩
      intro a ha
      rcases mem_insertByTimestamp ha with rfl | ha'
      · exact hle
      · exact h.1 a ha'
    · rw [insertByTimestamp, if_neg hle, List.pairwise_cons]
      push_neg at hle
      refine ⟨?_, List.pairwise_cons.mpr h⟩
      intro a ha
      rcases List.mem_cons.mp ha with rfl | ha'
      · omega
      · have := h.1 a ha'
        omega

/-- Inserting into a sorted list appends the element to the fiber of its own
key and leaves every other fiber unchanged. -/
theorem insertByTimestamp_filterKey (x : Json) (k : Int) :
    ∀ l : List Json, l.Pairwise (fun a b => sortKey a ≤ sortKey b) →
      filterKey k (insertByTimestamp x l) =
        if sortKey x = k then filterKey k l ++ [x] else filterKey k l := by
  intro l
  induction l with
  | nil => by_cases hk : sortKey x = k <;> simp [insertByTimestamp, filterKey, hk]
  | cons y ys ih =>
    intro h
    rw [List.pairwise_cons] at h
    by_cases hle : sortKey y ≤ sortKey x
    · rw [insertByTimestamp, if_pos hle]
      have hrec := ih h.2
      by_cases hk : sortKey x = k
      · rw [if_pos hk] at hrec ⊢
        simp only [filterKey, List.filter_cons] at hrec ⊢
        by_cases hyk : sortKey y = k <;> simp [hyk, hrec]
      · rw [if_neg hk] at hrec ⊢
        simp only [filterKey, List.filter_cons] at hrec ⊢
        by_cases hyk : sortKey y = k <;> simp [hyk, hrec]
    · rw [insertByTimestamp, if_neg hle]
      push_neg at hle
      by_cases hk : sortKey x = k
      · rw [if_pos hk]
        have hnil : filterKey k (y :: ys) = [] := by
          simp only [filterKey, List.filter_eq_nil_iff]
          intro a ha
          rcases List.mem_cons.mp ha with rfl | ha'
          · simp; omega
          · have := h.1 a ha'
            simp; omega
        simp only [filterKey] at hnil ⊢
        simp [List.filter_cons, hk, hnil]
      · rw [if_neg hk]
        simp only [filterKey, List.filter_cons]
        simp [hk]

/-- Invariant of the sorting fold: the accumulator stays sorted and every
key fiber of the result is the accumulator's fiber followed by the pending
input's fiber. -/
theorem sortFold_invariant :
    ∀ (l acc : List Json), acc.Pairwise (fun a b => sortKey a ≤ sortKey b) →
      (l.foldl (fun acc x => insertByTimestamp x acc) acc).Pairwise
        (fun a b => sortKey a ≤ sortKey b)
      ∧ ∀ k, filterKey k (l.foldl (fun acc x => insertByTimestamp x acc) acc) =
          filterKey k acc ++ filterKey k l := by
  intro l
  induction l with
  | nil => intro acc h; simp [filterKey, h]
  | cons x xs ih =>
    intro acc h
    have hsorted := insertByTimestamp_sorted x acc h
    obtain ⟨hs, hf⟩ := ih (insertByTimestamp x acc) hsorted
    refine ⟨hs, ?_⟩
    intro k
    rw [List.foldl_cons] at *
    rw [hf k, insertByTimestamp_filterKey x k acc h]
    by_cases hk : sortKey x = k <;> simp [filterKey, hk]

/-- Claim C5: merging two parsed event logs concatenates them and
stable-sorts by timestamp ascending — the result is sorted by `sortKey`,
every key fiber keeps its original arrival order (tmux events then
filesystem events), a missing timestamp member sorts with key 0, and the
spec's example `merge(A=[ts 5, ts 1], B=[ts 3])` comes out in order
`[1, 3, 5]`. -/
theorem claim_C5_merge_stable_sort :
    (∀ A B : List Json,
        merge_logs_by_timestamp (LogFileRead.parsed A) (LogFileRead.parsed B) =
          Except.ok (sortByTimestamp (A ++ B)))
  ∧ (∀ A B : List Json,
        (sortByTimestamp (A ++ B)).Pairwise (fun a b => sortKey a ≤ sortKey b))
  ∧ (∀ (A B : List Json) (k : Int),
        filterKey k (sortByTimestamp (A ++ B)) = filterKey k A ++ filterKey k B)
  ∧ (∀ members : List (String × Json), members.lookup "timestamp" = none →
        sortKey (Json.obj members) = 0)
  ∧ (merge_logs_by_timestamp
        (LogFileRead.parsed [Json.obj [("timestamp", Json.num 5)],
                             Json.obj [("timestamp", Json.num 1)]])
        (LogFileRead.parsed [Json.obj [("timestamp", Json.num 3)]]) =
      Except.ok [Json.obj [("timestamp", Json.num 1)],
                 Json.obj [("timestamp", Json.num 3)],
                 Json.obj [("timestamp", Json.num 5)]]) := by
  refine ⟨?_, ?_, ?_, ?_, ?_⟩
  · intro A B
    rfl
  · intro A B
    exact (sortFold_invariant (A ++ B) [] (by simp)).1
  · intro A B k
    have := (sortFold_invariant (A ++ B) [] (by simp)).2 k
    simp only [sortByTimestamp]
    rw [this]
    simp [filterKey]
  · intro members hnone
    simp [sortKey, hnone]
  · rfl

/-- Witness for C5 at a concrete input: the fiber of key 1 after merging,
and the default key of a timestamp-less object. -/
theorem claim_C5_merge_stable_sort_witness :
    filterKey 1 (sortByTimestamp ([Json.obj [("timestamp", Json.num 1), ("pane", Json.str "a")]] ++
        [Json.obj [("timestamp", Json.num 1), ("pane", Json.str "b")]])) =
      [Json.obj [("timestamp", Json.num 1), ("pane", Json.str "a")],
       Json.obj [("timestamp", Json.num 1), ("pane", Json.str "b")]]
  ∧ sortKey (Json.obj [("event_type", Json.str "command_completed")]) = 0 := by
  constructor
  · rw [claim_C5_merge_stable_sort.2.2.1 _ _ 1]
    rfl
  · exact claim_C5_merge_stable_sort.2.2.2.1 [("event_type", Json.str "command_completed")] rfl

/-- Claim C2 counterexample: merging with a missing log file raises
(`open` raises `FileNotFoundError`; only `json.JSONDecodeError` is caught),
so the merge does not succeed even though the other log is well-formed. -/
theorem claim_C2_missing_file_raises :
    merge_logs_by_timestamp LogFileRead.missing (LogFileRead.parsed []) =
      Except.error "FileNotFoundError" := rfl

/-- Claim C2 as amended: when both log files exist, merging never raises:
malformed JSON contents are treated as an empty event array and the merge
of the other log still succeeds. -/
theorem claim_C2_merge_total_amended :
    (∀ tmux_log fs_log : LogFileRead,
        tmux_log ≠ LogFileRead.missing → fs_log ≠ LogFileRead.missing →
        ∃ events, merge_logs_by_timestamp tmux_log fs_log = Except.ok events)
  ∧ read_json_log LogFileRead.malformed = Except.ok []
  ∧ (∀ B : List Json,
        merge_logs_by_timestamp LogFileRead.malformed (LogFileRead.parsed B) =
          Except.ok (sortByTimestamp B))
  ∧ (∀ A : List Json,
        merge_logs_by_timestamp (LogFileRead.parsed A) LogFileRead.malformed =
          Except.ok (sortByTimestamp A)) := by
  refine ⟨?_, rfl, ?_, ?_⟩
  · intro tmux_log fs_log ht hf
    cases tmux_log with
    | missing => exact absurd rfl ht
    | malformed =>
      cases fs_log with
      | missing => exact absurd rfl hf
      | malformed => exact ⟨_, rfl⟩
      | parsed B => exact ⟨_, rfl⟩
    | parsed A =>
      cases fs_log with
      | missing => exact absurd rfl hf
      | malformed => exact ⟨_, rfl⟩
      | parsed B => exact ⟨_, rfl⟩
  · intro B
    simp [merge_logs_by_timestamp, read_json_log]
    rfl
  · intro A
    simp [merge_logs_by_timestamp, read_json_log]
    rfl

/-- Witness for C2 at a concrete input: a malformed tmux log merged with a
one-event filesystem log succeeds. -/
theorem claim_C2_merge_total_amended_witness :
    ∃ events, merge_logs_by_timestamp LogFileRead.malformed
      (LogFileRead.parsed [Json.obj [("timestamp", Json.num 3)]]) = Except.ok events := by
  exact claim_C2_merge_total_amended.1 LogFileRead.malformed
    (LogFileRead.parsed [Json.obj [("timestamp", Json.num 3)]])
    (by intro h; cases h) (by intro h; cases h)

/-! ### The summarization pipeline, `src/src/lib/llm_summarizer.py`

The LLM provider (`litellm.completion` inside `summarize_one`, together
with `load_prompt`) is abstracted as an oracle mapping a system-prompt name
(`"single"` or `"many"`) and the user content to `some summary`, or `none`
when the call raises (the code's failure sentinel).
-/

/-- An LLM provider: system-prompt name and user content in, summary text
or the failure sentinel out. -/
def Oracle : Type := String → String → Option String

/-- Model of `summarize_one`: one LLM call; `None` on any exception. -/
def summarize_one (oracle : Oracle) (text : String) (prompt : String) : Option String :=
  oracle prompt text

/-- Loop of `summarize_many` over `list_text[1:]`: each iteration first
aborts if the running summary is the failure sentinel, then feeds
`summary + "\n\n" + text` to the `"many"` prompt. -/
def summarizeManyGo (oracle : Oracle) : Option String → List String → Option String
  | summary, [] => summary
  | summary, text :: rest =>
    match summary with
    | none => none
    | some s => summarizeManyGo oracle (summarize_one oracle (s ++ "\n\n" ++ text) "many") rest

/-- Model of `summarize_many`: seed the accumulator with the first chunk
under the `"single"` prompt, then reduce the remaining chunks under the
`"many"` prompt.  The source is only called with at least two chunks. -/
def summarize_many (oracle : Oracle) : List String → Option String
  | [] => none
  | t0 :: rest => summarizeManyGo oracle (summarize_one oracle t0 "single") rest

/-- Model of `summarize`: chunk the merged text, then dispatch on the
number of chunks — zero chunks yield the sentinel, one chunk a single
call, several chunks the iterative reduction.  Each chunk's text is its
`json.dumps` serialization. -/
def summarize (oracle : Oracle) (token_limit : Nat) (items : List Json) : Option String :=
  match (split_json_by_token_limit items token_limit).map
      (fun chunk => dumps (Json.arr chunk)) with
  | [] => none
  | [t] => summarize_one oracle t "single"
  | ts => summarize_many oracle ts

/-- State of the pipeline that one firing of `generate_summary` reads and
writes: both source log files, the dated artifact file, and the in-memory
`last_run_day` marker. -/
structure SummarizerState where
  tmux_log : LogFileRead
  fs_log : LogFileRead
  artifact : Option String
  last_run_day : Int

/-- Truncating a log (`open(path, "w")` with no write) leaves an empty
file; its contents are not valid JSON, so the next `read_json_log` parses
it as `[]` through the `JSONDecodeError` handler. -/
def truncatedLog : LogFileRead := LogFileRead.malformed

/-- Model of the body of `generate_summary` at a tick on which the firing
guard (`now.time() >= run_hour and now.date() > last_run_day`, or
`wait_to_summarize=False`) holds: merge the logs (a missing log file makes
the read raise), summarize, and on the sentinel return with no state
change; otherwise write the dated artifact, set `last_run_day` to today and
truncate both source logs.  The `while`/`sleep` scheduling and the
`stop_event` are outside the single-run model. -/
def generate_summary (oracle : Oracle) (token_limit : Nat)
    (st : SummarizerState) (today : Int) : Except String SummarizerState :=
  match read_json_log st.tmux_log with
  | Except.error e => Except.error e
  | Except.ok tmux_events =>
    match read_json_log st.fs_log with
    | Except.error e => Except.error e
    | Except.ok fs_events =>
      match summarize oracle token_limit (sortByTimestamp (tmux_events ++ fs_events)) with
      | none => Except.ok st
      | some summary =>
        Except.ok { tmux_log := truncatedLog, fs_log := truncatedLog,
                    artifact := some summary, last_run_day := today }

/-- A reduction seeded with a summary stays successful when the oracle
never fails. -/
theorem summarizeManyGo_isSome (oracle : Oracle)
    (h : ∀ p t, (oracle p t).isSome) :
    ∀ (rest : List String) (s : String),
      (summarizeManyGo oracle (some s) rest).isSome := by
  intro rest
  induction rest with
  | nil => intro s; rfl
  | cons text ts ih =>
    intro s
    rw [summarizeManyGo]
    have := h "many" (s ++ "\n\n" ++ text)
    rcases Option.isSome_iff_exists.mp this with ⟨s', hs'⟩
    simp only [summarize_one, hs']
    exact ih s'

/-- With a never-failing oracle and at least one chunk, `summarize` does
not return the sentinel. -/
theorem summarize_isSome (oracle : Oracle) (token_limit : Nat) (items : List Json)
    (h : ∀ p t, (oracle p t).isSome)
    (hchunks : split_json_by_token_limit items token_limit ≠ []) :
    (summarize oracle token_limit items).isSome := by
  rcases hsp : (split_json_by_token_limit items token_limit).map
      (fun chunk => dumps (Json.arr chunk)) with _ | ⟨t0, rest⟩
  · exact absurd (List.map_eq_nil_iff.mp hsp) hchunks
  · rcases rest with _ | ⟨t1, rest'⟩
    · rw [summarize, hsp]
      exact h "single" t0
    · rw [summarize, hsp]
      show (summarize_many oracle (t0 :: t1 :: rest')).isSome
      show (summarizeManyGo oracle (summarize_one oracle t0 "single") (t1 :: rest')).isSome
      rcases Option.isSome_iff_exists.mp (h "single" t0) with ⟨s0, hs0⟩
      rw [show summarize_one oracle t0 "single" = some s0 from hs0]
      exact summarizeManyGo_isSome oracle h (t1 :: rest') s0

/-- Claim C1 counterexample: a run over two well-formed but empty logs with
an oracle that never fails — every LLM call succeeds (vacuously: none are
made), yet no artifact is written, `last_run_day` keeps its old value and
the logs are not truncated, because zero chunks abort the run. -/
theorem claim_C1_vacuous_success_run :
    (∀ p t, ((fun _ _ => some "summary" : Oracle) p t).isSome)
  ∧ generate_summary (fun _ _ => some "summary") 1000000
      ⟨LogFileRead.parsed [], LogFileRead.parsed [], none, 0⟩ 1 =
      Except.ok ⟨LogFileRead.parsed [], LogFileRead.parsed [], none, 0⟩
  ∧ (none : Option String) = none
  ∧ (0 : Int) ≠ 1 := by
  exact ⟨fun _ _ => rfl, rfl, rfl, by decide⟩

/-- Claim C1 as amended: for every run over readable logs — if the merged
log yields at least one chunk and every LLM call succeeds, the run writes
the summary artifact, sets `last_run_day` to today and truncates both
source logs; if the summarization returns the failure sentinel (in
particular when any LLM call fails, or when there are zero chunks), the run
ends with the state unchanged: no partial report, both logs and
`last_run_day` untouched. -/
theorem claim_C1_pipeline_run :
    ∀ (oracle : Oracle) (token_limit : Nat) (st : SummarizerState) (today : Int)
      (tmux_events fs_events : List Json),
      read_json_log st.tmux_log = Except.ok tmux_events →
      read_json_log st.fs_log = Except.ok fs_events →
      ((∀ p t, (oracle p t).isSome) →
        split_json_by_token_limit (sortByTimestamp (tmux_events ++ fs_events)) token_limit ≠ [] →
        ∃ summary, generate_summary oracle token_limit st today =
          Except.ok { tmux_log := truncatedLog, fs_log := truncatedLog,
                      artifact := some summary, last_run_day := today })
      ∧ (summarize oracle token_limit (sortByTimestamp (tmux_events ++ fs_events)) = none →
        generate_summary oracle token_limit st today = Except.ok st) := by
  intro oracle token_limit st today tmux_events fs_events htmux hfs
  constructor
  · intro hok hchunks
    have hsome := summarize_isSome oracle token_limit
      (sortByTimestamp (tmux_events ++ fs_events)) hok hchunks
    rcases Option.isSome_iff_exists.mp hsome with ⟨summary, hs⟩
    refine ⟨summary, ?_⟩
    simp only [generate_summary, htmux, hfs, hs]
  · intro hnone
    simp only [generate_summary, htmux, hfs, hnone]

/-- Witness for C1 at concrete inputs: a one-event log with a never-failing
oracle truncates both logs and stamps the day; a failing oracle leaves the
state unchanged. -/
theorem claim_C1_pipeline_run_witness :
    (∃ summary, generate_summary (fun _ _ => some "report") 1000000
        ⟨LogFileRead.parsed [Json.obj [("timestamp", Json.num 7)]],
         LogFileRead.parsed [], none, 0⟩ 1 =
        Except.ok { tmux_log := truncatedLog, fs_log := truncatedLog,
                    artifact := some summary, last_run_day := 1 })
  ∧ generate_summary (fun _ _ => none) 1000000
      ⟨LogFileRead.parsed [Json.obj [("timestamp", Json.num 7)]],
       LogFileRead.parsed [], none, 0⟩ 1 =
      Except.ok ⟨LogFileRead.parsed [Json.obj [("timestamp", Json.num 7)]],
                 LogFileRead.parsed [], none, 0⟩ := by
  constructor
  · refine (claim_C1_pipeline_run (fun _ _ => some "report") 1000000
      ⟨LogFileRead.parsed [Json.obj [("timestamp", Json.num 7)]],
       LogFileRead.parsed [], none, 0⟩ 1
      [Json.obj [("timestamp", Json.num 7)]] [] rfl rfl).1 (fun _ _ => rfl) ?_
    intro h
    have hev : split_json_by_token_limit
        (sortByTimestamp ([Json.obj [("timestamp", Json.num 7)]] ++ [])) 1000000 =
        [[Json.obj [("timestamp", Json.num 7)]]] := rfl
    rw [hev] at h
    cases h
  · exact (claim_C1_pipeline_run (fun _ _ => none) 1000000
      ⟨LogFileRead.parsed [Json.obj [("timestamp", Json.num 7)]],
       LogFileRead.parsed [], none, 0⟩ 1
      [Json.obj [("timestamp", Json.num 7)]] [] rfl rfl).2 rfl

/-! ### The tmux watcher, `src/src/lib/tmux_watcher.py`

Claims C9 and C10 are about the book-keeping of
`check_for_completed_commands` around its helpers from `src/src/lib/tmux.py`.
Those helpers are pure functions of the pane content; the claims quantify
over their outputs, so they are carried as an environment:
`get_tmux_pane_content` (a tmux subprocess call), `is_command_finished`,
`get_command_from_content` (which returns `""` when no command is found)
and `extract_last_command_output`.
-/

/-- Python whitespace characters for `str.strip()` (the ASCII ones; the
strings involved here are ASCII). -/
def pyWhitespace (c : Char) : Bool :=
  c = ' ' || c = '\t' || c = '\n' || c = '\r' || c = Char.ofNat 11 || c = Char.ofNat 12

/-- Model of Python `s.strip()`: drop leading and trailing whitespace. -/
def pyStrip (s : String) : String :=
  String.mk (((s.toList.dropWhile pyWhitespace).reverse.dropWhile pyWhitespace).reverse)

/-- One pane's tracked state (`watcher.pane_states[pane]`). -/
structure PaneState where
  last_command : String
  waiting_for_completion : Bool

/-- A completed-command record as appended by the watcher. -/
structure CommandRecord where
  pane : String
  command : String
  output : String
  timestamp : Int

/-- The pane-content environment: outputs of the tmux capture call and of
the pure content-analysis helpers of `src/src/lib/tmux.py`. -/
structure TmuxEnv where
  content : String → Option String
  finished : String → Bool
  command : String → String
  extractOutput : String → String
  now : Int

/-- Map from pane id to its tracked state (`watcher.pane_states`). -/
def PaneStates : Type := String → Option PaneState

/-- Default state inserted on first sight of a pane
(`{"last_command": "", "waiting_for_completion": False}`). -/
def defaultPaneState : PaneState :=
  { last_command := "", waiting_for_completion := false }

/-- Model of `if pane not in watcher.pane_states: ... = default`. -/
def ensurePane (states : PaneStates) (pane : String) : PaneStates :=
  fun q =>
    if q = pane then
      some (match states pane with
            | some ps => ps
            | none => defaultPaneState)
    else states q

/-- Current state of a pane after insertion. -/
def getPane (states : PaneStates) (pane : String) : PaneState :=
  match states pane with
  | some ps => ps
  | none => defaultPaneState

/-- Loop body of `check_for_completed_commands` for one pane: skip on a
failed capture, insert the default state on first sight, and when the pane
is finished and yields a fresh non-empty command, emit a record only when
the extracted output is non-blank — but update `last_command` either way. -/
def processPane (env : TmuxEnv) (capture_full_output : Bool)
    (states : PaneStates) (pane : String) : List CommandRecord × PaneStates :=
  match env.content pane with
  | none => ([], states)
  | some current_content =>
    let states1 := ensurePane states pane
    let pane_state := getPane states pane
    if env.finished current_content then
      let command := env.command current_content
      if command ≠ "" ∧ command ≠ pane_state.last_command then
        let output := if capture_full_output then current_content
                      else env.extractOutput current_content
        let recs := if output ≠ "" ∧ pyStrip output ≠ "" then
            [{ pane := pane, command := command, output := output, timestamp := env.now }]
          else []
        (recs, fun q => if q = pane then
            some { last_command := command, waiting_for_completion := false }
          else states1 q)
      else ([], states1)
    else ([], states1)

/-- Model of `check_for_completed_commands`: fold the pane loop over
`watcher.panes`, accumulating records and threading the pane-state map. -/
def check_for_completed_commands (env : TmuxEnv) (capture_full_output : Bool) :
    List String → PaneStates → List CommandRecord × PaneStates
  | [], states => ([], states)
  | pane :: rest, states =>
    let step := processPane env capture_full_output states pane
    let next := check_for_completed_commands env capture_full_output rest step.2
    (step.1 ++ next.1, next.2)

/-- Repeated polls (the `watch` loop): run the check once per environment
in the trace, threading the pane states, and collect every emitted
record. -/
def pollTrace (capture_full_output : Bool) (panes : List String) :
    List TmuxEnv → PaneStates → List CommandRecord
  | [], _ => []
  | env :: rest, states =>
    let step := check_for_completed_commands env capture_full_output panes states
    step.1 ++ pollTrace capture_full_output panes rest step.2

/-- Processing one pane never touches another pane's state. -/
theorem processPane_other (env : TmuxEnv) (full : Bool) (states : PaneStates)
    (pane q : String) (hq : q ≠ pane) :
    (processPane env full states pane).2 q = states q := by
  cases hct : env.content pane with
  | none => simp only [processPane, hct]
  | some ct =>
    simp only [processPane, hct]
    by_cases hfin : env.finished ct = true
    · simp only [hfin, if_true]
      by_cases hcmd : env.command ct ≠ "" ∧ env.command ct ≠ (getPane states pane).last_command
      · simp only [if_pos hcmd, if_neg hq, ensurePane]
      · simp only [if_neg hcmd, ensurePane, if_neg hq]
    · simp only [if_neg hfin, ensurePane, if_neg hq]

/-- Every record a pane's processing emits carries that pane's id, leaves
the pane's `last_command` equal to the emitted command, and has a non-blank
output. -/
theorem processPane_emit (env : TmuxEnv) (full : Bool) (states : PaneStates)
    (pane : String) :
    ∀ r ∈ (processPane env full states pane).1,
      r.pane = pane
      ∧ (processPane env full states pane).2 pane =
          some { last_command := r.command, waiting_for_completion := false }
      ∧ pyStrip r.output ≠ "" := by
  intro r hr
  cases hct : env.content pane with
  | none => simp only [processPane, hct] at hr; cases hr
  | some ct =>
    simp only [processPane, hct] at hr ⊢
    by_cases hfin : env.finished ct = true
    · simp only [hfin, if_true] at hr ⊢
      by_cases hcmd : env.command ct ≠ "" ∧ env.command ct ≠ (getPane states pane).last_command
      · simp only [if_pos hcmd] at hr ⊢
        by_cases hout : (if full then ct else env.extractOutput ct) ≠ ""
            ∧ pyStrip (if full then ct else env.extractOutput ct) ≠ ""
        · simp only [if_pos hout] at hr
          have hrec := List.mem_singleton.mp hr
          subst hrec
          exact ⟨rfl, by simp, hout.2⟩
        · simp only [if_neg hout] at hr
          cases hr
      · simp only [if_neg hcmd] at hr
        cases hr
    · simp only [if_neg hfin] at hr
      cases hr

/-- A pane whose tracked state exists and whose every finished poll still
yields the tracked `last_command` is left exactly as it was, with nothing
emitted. -/
theorem processPane_stable (env : TmuxEnv) (full : Bool) (states : PaneStates)
    (p : String) (ps : PaneState) (hst : states p = some ps)
    (hyield : ∀ ct, env.content p = some ct → env.finished ct = true →
      env.command ct = ps.last_command) :
    processPane env full states p = ([], states) := by
  have hens : ensurePane states p = states := by
    funext q
    by_cases hq : q = p
    · subst hq; simp [ensurePane, hst]
    · simp [ensurePane, hq]
  cases hct : env.content p with
  | none => simp only [processPane, hct]
  | some ct =>
    simp only [processPane, hct]
    by_cases hfin : env.finished ct = true
    · have hcmd := hyield ct hct hfin
      have hgp : (getPane states p).last_command = ps.last_command := by
        simp [getPane, hst]
      have hneg : ¬ (env.command ct ≠ "" ∧ env.command ct ≠ (getPane states p).last_command) := by
        intro h
        exact h.2 (by rw [hcmd, hgp])
      simp only [hfin, if_true, if_neg hneg, hens]
    · simp only [if_neg hfin, hens]

/-- Over a whole scan, a pane in the stable situation of
`processPane_stable` emits nothing and keeps its state, whatever the other
panes do. -/
theorem check_pane_stable (env : TmuxEnv) (full : Bool) (p : String) (ps : PaneState)
    (hyield : ∀ ct, env.content p = some ct → env.finished ct = true →
      env.command ct = ps.last_command) :
    ∀ (panes : List String) (states : PaneStates), states p = some ps →
      (∀ r ∈ (check_for_completed_commands env full panes states).1, r.pane ≠ p)
      ∧ (check_for_completed_commands env full panes states).2 p = some ps := by
  intro panes
  induction panes with
  | nil => intro states hst; exact ⟨(fun r hr => nomatch hr), hst⟩
  | cons pane rest ih =>
    intro states hst
    by_cases hp : pane = p
    · subst hp
      have hstable := processPane_stable env full states pane ps hst hyield
      rw [check_for_completed_commands]
      simp only [hstable]
      exact ih states hst
    · have hpres : (processPane env full states pane).2 p = some ps := by
        rw [processPane_other env full states pane p (fun h => hp h.symm), hst]
      obtain ⟨hrec, hfinal⟩ := ih (processPane env full states pane).2 hpres
      rw [check_for_completed_commands]
      refine ⟨?_, hfinal⟩
      intro r hr
      rcases List.mem_append.mp hr with hr1 | hr2
      · have := (processPane_emit env full states pane r hr1).1
        rw [this]
        exact fun h => hp h
      · exact hrec r hr2

/-- A scan does not move the state of a pane it does not visit. -/
theorem check_not_visited (env : TmuxEnv) (full : Bool) (p : String) :
    ∀ (panes : List String) (states : PaneStates), p ∉ panes →
      (check_for_completed_commands env full panes states).2 p = states p := by
  intro panes
  induction panes with
  | nil => intro states _; rfl
  | cons pane rest ih =>
    intro states hnot
    rw [check_for_completed_commands]
    have hne : p ≠ pane := fun h => hnot (h ▸ List.Mem.head _)
    rw [ih _ (fun h => hnot (List.Mem.tail _ h)),
      processPane_other env full states pane p hne]

/-- Claim C9: a completed command is emitted at most once per pane — after
a scan emits a record for a pane (pane list without duplicates), that
pane's tracked `last_command` equals the emitted command; and a subsequent
scan of a pane whose content is still finished and still yields the tracked
command emits no record for that pane. -/
theorem claim_C9_emit_once_per_pane :
    (∀ (env : TmuxEnv) (full : Bool) (panes : List String) (states : PaneStates),
      panes.Nodup →
      ∀ r ∈ (check_for_completed_commands env full panes states).1,
        (check_for_completed_commands env full panes states).2 r.pane =
          some { last_command := r.command, waiting_for_completion := false })
  ∧ (∀ (env' : TmuxEnv) (full : Bool) (panes : List String) (states : PaneStates)
      (p : String) (ps : PaneState),
      states p = some ps →
      (∀ ct, env'.content p = some ct → env'.finished ct = true →
        env'.command ct = ps.last_command) →
      ∀ r ∈ (check_for_completed_commands env' full panes states).1, r.pane ≠ p) := by
  constructor
  · intro env full panes
    induction panes with
    | nil => intro states _ r hr; cases hr
    | cons pane rest ih =>
      intro states hnodup r hr
      rw [check_for_completed_commands] at hr ⊢
      rcases List.mem_append.mp hr with hr1 | hr2
      · obtain ⟨hpane, hstate, _⟩ := processPane_emit env full states pane r hr1
        rw [hpane]
        rw [check_not_visited env full pane rest (processPane env full states pane).2
          (List.nodup_cons.mp hnodup).1]
        exact hstate
      · exact ih (processPane env full states pane).2 (List.nodup_cons.mp hnodup).2 r hr2
  · intro env' full panes states p ps hst hyield
    exact (check_pane_stable env' full p ps hyield panes states hst).1

/-- Witness for C9 at a concrete input: one pane emitting `make test`
leaves `last_command = "make test"`, and a second poll with the same
finished content emits nothing. -/
theorem claim_C9_emit_once_per_pane_witness :
    (check_for_completed_commands
        ⟨fun _ => some "buf", fun _ => true, fun _ => "make test", fun _ => "done", 0⟩
        false ["%1"] (fun _ => none)).2 "%1" =
      some { last_command := "make test", waiting_for_completion := false }
  ∧ ∀ r ∈ (check_for_completed_commands
        ⟨fun _ => some "buf", fun _ => true, fun _ => "make test", fun _ => "done", 0⟩
        false ["%1"]
        (fun q => if q = "%1" then
          some { last_command := "make test", waiting_for_completion := false }
          else none)).1, r.pane ≠ "%1" := by
  constructor
  · have hr : ({ pane := "%1", command := "make test", output := "done", timestamp := 0 }
        : CommandRecord) ∈ (check_for_completed_commands
          ⟨fun _ => some "buf", fun _ => true, fun _ => "make test", fun _ => "done", 0⟩
          false ["%1"] (fun _ => none)).1 := by
      have : (check_for_completed_commands
          ⟨fun _ => some "buf", fun _ => true, fun _ => "make test", fun _ => "done", 0⟩
          false ["%1"] (fun _ => none)).1 =
          [{ pane := "%1", command := "make test", output := "done", timestamp := 0 }] := rfl
      rw [this]
      exact List.Mem.head _
    exact claim_C9_emit_once_per_pane.1 _ false ["%1"] (fun _ => none)
      (by simp) _ hr
  · exact claim_C9_emit_once_per_pane.2 _ false ["%1"] _ "%1"
      { last_command := "make test", waiting_for_completion := false } (by simp)
      (fun ct _ _ => rfl)

/-- Claim C10: every emitted record has a non-blank output; a finished pane
yielding a fresh valid command with blank extracted output emits nothing
yet still updates `last_command`; and thereafter the command is never
emitted on any later poll whose content still yields it. -/
theorem claim_C10_no_blank_outputs :
    (∀ (env : TmuxEnv) (full : Bool) (panes : List String) (states : PaneStates),
      ∀ r ∈ (check_for_completed_commands env full panes states).1,
        pyStrip r.output ≠ "")
  ∧ (∀ (env : TmuxEnv) (full : Bool) (states : PaneStates) (p : String) (ct c : String),
      env.content p = some ct → env.finished ct = true → env.command ct = c →
      c ≠ "" → c ≠ (getPane states p).last_command →
      pyStrip (if full then ct else env.extractOutput ct) = "" →
      processPane env full states p =
        ([], fun q => if q = p then
            some { last_command := c, waiting_for_completion := false }
          else states q))
  ∧ (∀ (full : Bool) (panes : List String) (envs : List TmuxEnv)
      (states : PaneStates) (p : String) (ps : PaneState),
      states p = some ps →
      (∀ env' ∈ envs, ∀ ct, env'.content p = some ct → env'.finished ct = true →
        env'.command ct = ps.last_command) →
      ∀ r ∈ pollTrace full panes envs states, r.pane ≠ p) := by
  refine ⟨?_, ?_, ?_⟩
  · intro env full panes
    induction panes with
    | nil => intro states r hr; cases hr
    | cons pane rest ih =>
      intro states r hr
      rw [check_for_completed_commands] at hr
      rcases List.mem_append.mp hr with hr1 | hr2
      · exact (processPane_emit env full states pane r hr1).2.2
      · exact ih (processPane env full states pane).2 r hr2
  · intro env full states p ct c hct hfin hcmd hne hfresh hblank
    simp only [processPane, hct, hfin, if_true, hcmd]
    rw [if_pos ⟨hne, hfresh⟩]
    have hrecs : ¬ ((if full then ct else env.extractOutput ct) ≠ ""
        ∧ pyStrip (if full then ct else env.extractOutput ct) ≠ "") := by
      intro h
      exact h.2 hblank
    rw [if_neg hrecs]
    refine congrArg _ ?_
    funext q
    by_cases hq : q = p
    · simp [hq]
    · simp [hq, ensurePane]
  · intro full panes envs
    induction envs with
    | nil => intro states p ps _ _ r hr; cases hr
    | cons env rest ih =>
      intro states p ps hst hyield r hr
      rw [pollTrace] at hr
      obtain ⟨hrec, hstate⟩ := check_pane_stable env full p ps
        (hyield env (List.Mem.head _)) panes states hst
      rcases List.mem_append.mp hr with hr1 | hr2
      · exact hrec r hr1
      · exact ih _ p ps hstate (fun e he => hyield e (List.Mem.tail _ he)) r hr2

/-- Witness for C10 at a concrete input: a blank-output completion emits
nothing but records the command, and two further polls of the same content
stay silent. -/
theorem claim_C10_no_blank_outputs_witness :
    processPane ⟨fun _ => some "buf", fun _ => true, fun _ => "pytest tests", fun _ => "  ", 0⟩
      false (fun _ => none) "%2" =
      ([], fun q => if q = "%2" then
          some { last_command := "pytest tests", waiting_for_completion := false }
        else none)
  ∧ ∀ r ∈ pollTrace false ["%2"]
      [⟨fun _ => some "buf", fun _ => true, fun _ => "pytest tests", fun _ => " out ", 0⟩,
       ⟨fun _ => some "buf", fun _ => true, fun _ => "pytest tests", fun _ => " out ", 1⟩]
      (fun q => if q = "%2" then
          some { last_command := "pytest tests", waiting_for_completion := false }
        else none), r.pane ≠ "%2" := by
  constructor
  · exact claim_C10_no_blank_outputs.2.1 _ false (fun _ => none) "%2" "buf" "pytest tests"
      rfl rfl rfl (by simp) (by simp [getPane, defaultPaneState]) (by rfl)
  · exact claim_C10_no_blank_outputs.2.2 false ["%2"] _ _ "%2"
      { last_command := "pytest tests", waiting_for_completion := false }
      (by simp) (by
        intro env' he ct hct _
        rcases List.mem_cons.mp he with rfl | he2
        · cases hct; rfl
        · rcases List.mem_cons.mp he2 with rfl | he3
          · cases hct; rfl
          · cases he3)

/-! ### Python's `difflib.SequenceMatcher`

`file_system_watcher.py` calls `difflib.unified_diff` (over line lists) and
`difflib.SequenceMatcher(None, old, new).ratio()` (over strings).  Both run
`SequenceMatcher` with `isjunk=None`, so `bjunk` is empty and the
junk-extension loops of `find_longest_match` never fire; `autojunk` stays
enabled and drops "popular" elements from `b2j` when `len(b) >= 200`.  The
embedding below follows the CPython implementation; `while` loops and the
worklist of `get_matching_blocks` are rendered as fuel/structural
recursions that take the same steps.
-/

section SequenceMatcher

variable {α : Type} [DecidableEq α]

/-- Ascending list of the indices at which `x` occurs in `b`: one entry of
the `b2j` mapping. -/
def b2jIndices (b : List α) (x : α) : List Nat :=
  (List.range b.length).filter (fun j => decide (b.get? j = some x))

/-- The `b2j` mapping after the autojunk pass: when `b` has at least 200
elements, an element occurring more than `len(b) // 100 + 1` times is
"popular" and is dropped from the mapping. -/
def b2j (b : List α) (x : α) : List Nat :=
  if 200 ≤ b.length ∧ b.length / 100 + 1 < b.count x then []
  else b2jIndices b x

/-- Lookup in the previous row's `j2len` dict: `j2len.get(j - 1, 0)`, where
`j = 0` asks for the absent key `-1`. -/
def prevLen (f : Nat → Nat) (j : Nat) : Nat :=
  if j = 0 then 0 else f (j - 1)

/-- Inner loop of `find_longest_match` over `b2j[a[i]]` for one row `i`:
entries below `blo` are skipped, the ascending order makes `j >= bhi` a
break, and each processed `j` records `newj2len[j] = j2len.get(j-1, 0) + 1`
and promotes the running best on a strict improvement. -/
def flmRow (blo bhi : Nat) (prev : Nat → Nat) (i : Nat) :
    List Nat → (Nat → Nat) → (Nat × Nat × Nat) → ((Nat → Nat) × (Nat × Nat × Nat))
  | [], newf, best => (newf, best)
  | j :: js, newf, best =>
    if j < blo then flmRow blo bhi prev i js newf best
    else if bhi ≤ j then (newf, best)
    else
      let k := prevLen prev j + 1
      let newf' := fun j' => if j' = j then k else newf j'
      let best' := if best.2.2 < k then (i + 1 - k, j + 1 - k, k) else best
      flmRow blo bhi prev i js newf' best'

/-- Outer loop of `find_longest_match` over the rows `i` in
`range(alo, ahi)`; `cnt` counts the remaining rows, and each row threads
its fresh `newj2len` into the next.  (The `none` row arm is unreachable:
callers keep `ahi` within `a`.) -/
def flmRows (a b : List α) (blo bhi : Nat) :
    Nat → Nat → (Nat → Nat) → (Nat × Nat × Nat) → (Nat × Nat × Nat)
  | _, 0, _, best => best
  | i, cnt + 1, j2len, best =>
    match a.get? i with
    | none => flmRows a b blo bhi (i + 1) cnt (fun _ => 0) best
    | some ai =>
      let step := flmRow blo bhi j2len i (b2j b ai) (fun _ => 0) best
      flmRows a b blo bhi (i + 1) cnt step.1 step.2

/-- Does position `i` of `a` hold the same element as position `j` of `b`? -/
def matchAt (a b : List α) (i j : Nat) : Bool :=
  match a.get? i, b.get? j with
  | some x, some y => decide (x = y)
  | _, _ => false

/-- Leftward extension loop of `find_longest_match`
(`while besti > alo and bestj > blo and a[besti-1] == b[bestj-1]`; the
`isbjunk` conjunct is vacuous with `isjunk=None`).  `besti` itself is
always enough fuel. -/
def extendLeft (a b : List α) (alo blo : Nat) :
    Nat → Nat → Nat → Nat → (Nat × Nat × Nat)
  | 0, besti, bestj, bestsize => (besti, bestj, bestsize)
  | fuel + 1, besti, bestj, bestsize =>
    if alo < besti ∧ blo < bestj ∧ matchAt a b (besti - 1) (bestj - 1) then
      extendLeft a b alo blo fuel (besti - 1) (bestj - 1) (bestsize + 1)
    else (besti, bestj, bestsize)

/-- Rightward extension loop of `find_longest_match`
(`while besti+bestsize < ahi and ... a[besti+bestsize] == b[bestj+bestsize]`).
`ahi` is always enough fuel. -/
def extendRight (a b : List α) (ahi bhi : Nat) (besti bestj : Nat) :
    Nat → Nat → Nat
  | 0, bestsize => bestsize
  | fuel + 1, bestsize =>
    if besti + bestsize < ahi ∧ bestj + bestsize < bhi
        ∧ matchAt a b (besti + bestsize) (bestj + bestsize) then
      extendRight a b ahi bhi besti bestj fuel (bestsize + 1)
    else bestsize

/-- Model of `SequenceMatcher.find_longest_match` on `a[alo:ahi]` and
`b[blo:bhi]`: the dynamic-programming sweep, then the two non-junk
extension loops (the junk ones are no-ops with `isjunk=None`). -/
def find_longest_match (a b : List α) (alo ahi blo bhi : Nat) : Nat × Nat × Nat :=
  let best := flmRows a b blo bhi alo (ahi - alo) (fun _ => 0) (alo, blo, 0)
  let left := extendLeft a b alo blo best.1 best.1 best.2.1 best.2.2
  let size := extendRight a b ahi bhi left.1 left.2.1 ahi left.2.2
  (left.1, left.2.1, size)

/-- Recursive form of the `get_matching_blocks` worklist: find the longest
match of the window, then recurse on what is left of it and what is right
of it.  The emitted blocks come out already sorted, matching the
`matching_blocks.sort()` of the source; the window perimeter is always
enough fuel. -/
def matchingBlocksGo (a b : List α) : Nat → Nat → Nat → Nat → Nat → List (Nat × Nat × Nat)
  | 0, _, _, _, _ => []
  | fuel + 1, alo, ahi, blo, bhi =>
    let m := find_longest_match a b alo ahi blo bhi
    if m.2.2 = 0 then []
    else
      (if alo < m.1 ∧ blo < m.2.1 then matchingBlocksGo a b fuel alo m.1 blo m.2.1 else [])
      ++ [m]
      ++ (if m.1 + m.2.2 < ahi ∧ m.2.1 + m.2.2 < bhi then
            matchingBlocksGo a b fuel (m.1 + m.2.2) ahi (m.2.1 + m.2.2) bhi else [])

/-- The adjacency collapse at the end of `get_matching_blocks`: runs of
blocks where each ends exactly where the next begins merge into one. -/
def collapseGo : Nat → Nat → Nat → List (Nat × Nat × Nat) → List (Nat × Nat × Nat)
  | i1, j1, k1, [] => if k1 ≠ 0 then [(i1, j1, k1)] else []
  | i1, j1, k1, (i2, j2, k2) :: rest =>
    if i1 + k1 = i2 ∧ j1 + k1 = j2 then collapseGo i1 j1 (k1 + k2) rest
    else if k1 ≠ 0 then (i1, j1, k1) :: collapseGo i2 j2 k2 rest
    else collapseGo i2 j2 k2 rest

/-- Model of `SequenceMatcher.get_matching_blocks`: the recursive
decomposition, the adjacency collapse, and the `(la, lb, 0)` sentinel. -/
def get_matching_blocks (a b : List α) : List (Nat × Nat × Nat) :=
  collapseGo 0 0 0
      (matchingBlocksGo a b (a.length + b.length + 1) 0 a.length 0 b.length)
    ++ [(a.length, b.length, 0)]

/-- Model of `SequenceMatcher.ratio()` as the exact rational
`2 * M / T` (`_calculate_ratio`): `M` is the total size of the matching
blocks and `T` the total length; `1` when both sequences are empty. -/
def ratioVal (a b : List α) : ℚ :=
  if a.length + b.length ≠ 0 then
    mkRat (2 * (((get_matching_blocks a b).map (fun m => m.2.2)).sum : Int))
      (a.length + b.length)
  else 1

/-- Opcode tags of `SequenceMatcher.get_opcodes`. -/
inductive Tag where
  | replace : Tag
  | delete : Tag
  | insert : Tag
  | equal : Tag
deriving DecidableEq

/-- One opcode `(tag, i1, i2, j1, j2)`. -/
structure Opcode where
  tag : Tag
  i1 : Nat
  i2 : Nat
  j1 : Nat
  j2 : Nat
deriving DecidableEq

/-- Loop of `get_opcodes` over the matching blocks: the space between the
cursor and the next block becomes a `replace`/`delete`/`insert`, the block
itself an `equal` when non-empty. -/
def opcodesGo : Nat → Nat → List (Nat × Nat × Nat) → List Opcode
  | _, _, [] => []
  | i, j, (ai, bj, size) :: rest =>
    (if i < ai ∧ j < bj then [⟨Tag.replace, i, ai, j, bj⟩]
     else if i < ai then [⟨Tag.delete, i, ai, j, bj⟩]
     else if j < bj then [⟨Tag.insert, i, ai, j, bj⟩]
     else [])
    ++ (if size ≠ 0 then [⟨Tag.equal, ai, ai + size, bj, bj + size⟩] else [])
    ++ opcodesGo (ai + size) (bj + size) rest

/-- Model of `SequenceMatcher.get_opcodes`. -/
def get_opcodes (a b : List α) : List Opcode :=
  opcodesGo 0 0 (get_matching_blocks a b)

/-- Start-trim of a leading `equal` opcode to `n` lines of context
(`codes[0] = tag, max(i1, i2-n), i2, max(j1, j2-n), j2`). -/
def fixupHead (n : Nat) : List Opcode → List Opcode
  | [] => []
  | op :: rest =>
    if op.tag = Tag.equal then
      { op with i1 := max op.i1 (op.i2 - n), j1 := max op.j1 (op.j2 - n) } :: rest
    else op :: rest

/-- End-trim of a trailing `equal` opcode to `n` lines of context
(`codes[-1] = tag, i1, min(i2, i1+n), j1, min(j2, j1+n)`). -/
def fixupLast (n : Nat) : List Opcode → List Opcode
  | [] => []
  | [op] =>
    if op.tag = Tag.equal then
      [{ op with i2 := min op.i2 (op.i1 + n), j2 := min op.j2 (op.j1 + n) }]
    else [op]
  | op :: rest => op :: fixupLast n rest

/-- Splitting loop of `get_grouped_opcodes`: a long `equal` range
(`i2 - i1 > 2n`) ends the current group with `n` lines of trailing context
and starts the next with `n` lines of leading context; at the end a
remaining group is kept unless it is a single `equal` opcode. -/
def groupSplitGo (n : Nat) (group : List Opcode) : List Opcode → List (List Opcode)
  | [] =>
    match group with
    | [] => []
    | [op] => if op.tag = Tag.equal then [] else [[op]]
    | _ => [group]
  | op :: rest =>
    if op.tag = Tag.equal ∧ 2 * n < op.i2 - op.i1 then
      (group ++ [{ op with i2 := min op.i2 (op.i1 + n), j2 := min op.j2 (op.j1 + n) }]) ::
        groupSplitGo n [{ op with i1 := max op.i1 (op.i2 - n), j1 := max op.j1 (op.j2 - n) }] rest
    else groupSplitGo n (group ++ [op]) rest

/-- Model of `SequenceMatcher.get_grouped_opcodes(n)`:  substitute a
placeholder `equal` when there are no opcodes, trim the leading and
trailing context, and split at long `equal` ranges. -/
def get_grouped_opcodes (n : Nat) (a b : List α) : List (List Opcode) :=
  let codes := get_opcodes a b
  let codes := if codes.isEmpty then [⟨Tag.equal, 0, 1, 0, 1⟩] else codes
  groupSplitGo n [] (fixupLast n (fixupHead n codes))

end SequenceMatcher

/-! ### Python's `difflib.unified_diff` over line lists

`generate_diff` in `src/src/lib/file_system_watcher.py` calls
`unified_diff(old_lines, new_lines, fromfile=f"a/{name}", tofile=f"b/{name}",
lineterm="")` and joins the produced lines with `"\n"`.
-/

/-- Model of `difflib._format_range_unified`. -/
def formatRangeUnified (start stop : Nat) : String :=
  let beginning := start + 1
  let length := stop - start
  if length = 1 then natRepr beginning
  else natRepr (if length = 0 then beginning - 1 else beginning) ++ "," ++ natRepr length

/-- The `@@ -r1 +r2 @@` header of one hunk (group). -/
def hunkHeader (g : List Opcode) : String :=
  match g.head?, g.getLast? with
  | some first, some last =>
    "@@ -" ++ formatRangeUnified first.i1 last.i2
      ++ " +" ++ formatRangeUnified first.j1 last.j2 ++ " @@"
  | _, _ => ""

/-- The body lines one opcode contributes: context from `a`, `-` lines from
`a`, `+` lines from `b`. -/
def opLines (a b : List String) (op : Opcode) : List String :=
  match op.tag with
  | Tag.equal => ((a.drop op.i1).take (op.i2 - op.i1)).map (fun l => " " ++ l)
  | Tag.replace =>
    ((a.drop op.i1).take (op.i2 - op.i1)).map (fun l => "-" ++ l)
      ++ ((b.drop op.j1).take (op.j2 - op.j1)).map (fun l => "+" ++ l)
  | Tag.delete => ((a.drop op.i1).take (op.i2 - op.i1)).map (fun l => "-" ++ l)
  | Tag.insert => ((b.drop op.j1).take (op.j2 - op.j1)).map (fun l => "+" ++ l)

/-- Model of `difflib.unified_diff(a, b, fromfile, tofile, lineterm="")` as
the list of diff lines it yields: the two file headers once before the
first group, then per group its hunk header and body lines. -/
def unified_diff (a b : List String) (fromfile tofile : String) : List String :=
  let groups := get_grouped_opcodes 3 a b
  if groups.isEmpty then []
  else ["--- " ++ fromfile, "+++ " ++ tofile]
    ++ (groups.map (fun g => hunkHeader g :: (g.map (opLines a b)).flatten)).flatten

/-- Model of `generate_diff` from `src/src/lib/file_system_watcher.py`:
`"\n".join(diff)` when the diff is non-empty, else `None`. -/
def generate_diff (old_lines new_lines : List String) (file_name : String) : Option String :=
  let diff := unified_diff old_lines new_lines ("a/" ++ file_name) ("b/" ++ file_name)
  if diff.isEmpty then none else some (String.intercalate "\n" diff)

/-! ### The file-system watcher, `src/src/lib/file_system_watcher.py` -/

/-- The classifier configuration of `FileSystemWatcher` (the fields
`is_major_change` and `normalize_line` consume).  The similarity threshold
is carried as the exact rational it is configured as; the remaining fields
(directories, output paths, filetype filters) feed only the scanning
environment, and the snapshot map is threaded explicitly. -/
structure FileSystemWatcher where
  major_changes_only : Bool
  min_lines_changed : Nat
  similarity_threshold : ℚ

/-- The source's defaults with the classifier enabled:
`min_lines_changed = 3`, `similarity_threshold = 0.7`. -/
def defaultMajorWatcher : FileSystemWatcher :=
  { major_changes_only := true, min_lines_changed := 3, similarity_threshold := mkRat 7 10 }

/-- Collapse of whitespace runs to single spaces
(`re.sub(r"\s+", " ", ...)`); the flag records whether the previous
character was whitespace. -/
def collapseWs : List Char → Bool → List Char
  | [], _ => []
  | c :: rest, prevWs =>
    if pyWhitespace c then
      if prevWs then collapseWs rest true else ' ' :: collapseWs rest true
    else c :: collapseWs rest false

/-- Model of `normalize_line`: identity when the classifier is disabled;
otherwise strip, blank out empty and comment-only lines, collapse internal
whitespace. -/
def normalize_line (w : FileSystemWatcher) (line : String) : String :=
  if ¬ w.major_changes_only then line
  else
    let normalized := pyStrip line
    if normalized = "" ∨ ['#'].isPrefixOf normalized.toList
        ∨ ['/', '/'].isPrefixOf normalized.toList then ""
    else String.mk (collapseWs normalized.toList false)

/-- ASCII lower-casing (Python `str.lower()`; the keywords and lines
involved are ASCII). -/
def asciiLower (c : Char) : Char :=
  if 65 ≤ c.toNat ∧ c.toNat ≤ 90 then Char.ofNat (c.toNat + 32) else c

/-- Lower-case a string character-wise. -/
def pyLower (s : String) : String :=
  String.mk (s.toList.map asciiLower)

/-- Substring test (Python's `needle in hay`). -/
def containsSub (needle : List Char) : List Char → Bool
  | [] => needle.isEmpty
  | c :: rest => needle.isPrefixOf (c :: rest) || containsSub needle rest

/-- The distinct non-empty normalized lines, as a list standing for the
Python `set` (only membership and cardinality are consumed). -/
def distinctNonEmpty (lines : List String) : List String :=
  (lines.filter (fun l => l ≠ "")).dedup

/-- Set difference of the distinct-line lists. -/
def setDiff (xs ys : List String) : List String :=
  xs.filter (fun x => x ∉ ys)

/-- Model of `os.path.splitext(path)[1].lower()`: the extension starts at
the last dot of the final path component, except that leading dots of the
component never open an extension. -/
def pySplitextExt (path : String) : String :=
  let base := (path.toList.reverse.takeWhile (fun c => c ≠ '/')).reverse
  let afterDots := base.dropWhile (fun c => c = '.')
  let revAfter := afterDots.reverse
  let extRev := revAfter.takeWhile (fun c => c ≠ '.')
  if extRev.length = revAfter.length then ""
  else String.mk (('.' :: extRev.reverse).map asciiLower)

/-- The recognized code extensions of `is_major_change`. -/
def codeExtensions : List String :=
  [".py", ".js", ".ts", ".java", ".cpp", ".c", ".go", ".rs"]

/-- The structural keywords of `is_major_change`. -/
def code_keywords : List String :=
  ["def ", "class ", "function ", "import ", "from ", "if ", "for ", "while ",
   "return ", "async ", "await ", "try ", "except ", "catch ", "throw ",
   "func ", "fn ", "match "]

/-- Model of `is_major_change`: everything is major when the classifier is
disabled; otherwise a change is major when a distinct added/removed
normalized line of a code file contains a structural keyword, or the
distinct added+removed count reaches `min_lines_changed`, or some
positionally-paired normalized old/new line differs with similarity ratio
below `similarity_threshold`. -/
def is_major_change (w : FileSystemWatcher) (old_lines new_lines : List String)
    (file_path : String) : Bool :=
  if ¬ w.major_changes_only then true
  else
    let old_normalized := old_lines.map (normalize_line w)
    let new_normalized := new_lines.map (normalize_line w)
    let old_set := distinctNonEmpty old_normalized
    let new_set := distinctNonEmpty new_normalized
    let added_lines := setDiff new_set old_set
    let removed_lines := setDiff old_set new_set
    let total_changes := added_lines.length + removed_lines.length
    let ext := pySplitextExt file_path
    if ext ∈ codeExtensions ∧ (added_lines ++ removed_lines).any
        (fun line => code_keywords.any
          (fun kw => containsSub kw.toList (pyLower line).toList)) then true
    else if w.min_lines_changed ≤ total_changes then true
    else (old_normalized.zip new_normalized).any
      (fun p => p.1 ≠ p.2 ∧ ratioVal p.1.toList p.2.toList < w.similarity_threshold)

/-! ### Scanning for changes, `check_for_changes`

The file system is the watcher's environment: the scanned file list
(`scan_files` — globbing minus the excluded output paths), the hashing,
binary sniffing and content reads of `src/src/lib/file.py`, and the path
resolution (`find_file_in_dirs`, `os.path.relpath`, `os.path.basename`).
A read that fails is `none` and skips the file for the cycle.
-/

/-- The file-system environment of one scan cycle. -/
structure FileSystem where
  files : List String
  md5 : String → Option String
  is_binary : String → Bool
  content : String → Option (List String)
  watch_dir : String → Option String
  rel_path : String → String → String
  basename : String → String

/-- One file's cached snapshot (`watcher.file_snapshots[filepath]`). -/
structure Snapshot where
  hash : String
  lines : List String
  is_binary : Bool

/-- The snapshot map. -/
def Snapshots : Type := String → Option Snapshot

/-- Update of the snapshot map at one path. -/
def setSnap (snaps : Snapshots) (p : String) (s : Snapshot) : Snapshots :=
  fun q => if q = p then some s else snaps q

/-- One change record (`{"type": ..., "file": ..., "diff": ...}`). -/
structure FileChange where
  type : String
  file : String
  diff : String
deriving DecidableEq

/-- Loop body of `check_for_changes` for one scanned file: skip unreadable
files, handle binary files by fingerprint only, and diff text files,
updating the snapshot in every non-skip branch. -/
def checkFile (fs : FileSystem) (w : FileSystemWatcher) (snaps : Snapshots)
    (filepath : String) : List FileChange × Snapshots :=
  match fs.md5 filepath with
  | none => ([], snaps)
  | some current_hash =>
    match fs.watch_dir filepath with
    | none => ([], snaps)
    | some watch_dir =>
      let rel := fs.rel_path filepath watch_dir
      let repo := fs.basename watch_dir
      if fs.is_binary filepath then
        match snaps filepath with
        | none =>
          ([{ type := "new", file := filepath,
              diff := "Binary file added: " ++ repo ++ "/" ++ rel }],
           setSnap snaps filepath { hash := current_hash, lines := [], is_binary := true })
        | some snap =>
          if snap.hash ≠ current_hash then
            ([{ type := "modified", file := filepath,
                diff := "Binary file modified: " ++ repo ++ "/" ++ rel }],
             setSnap snaps filepath { hash := current_hash, lines := [], is_binary := true })
          else ([], snaps)
      else
        match fs.content filepath with
        | none => ([], snaps)
        | some current_lines =>
          match snaps filepath with
          | none =>
            let recs :=
              if ¬ w.major_changes_only ∨ is_major_change w [] current_lines filepath then
                match generate_diff [] current_lines (repo ++ "/" ++ rel) with
                | some d => if d ≠ "" then [{ type := "new", file := filepath, diff := d }] else []
                | none => []
              else []
            (recs, setSnap snaps filepath
              { hash := current_hash, lines := current_lines, is_binary := false })
          | some snap =>
            if snap.hash ≠ current_hash then
              let recs :=
                if is_major_change w snap.lines current_lines filepath then
                  match generate_diff snap.lines current_lines (repo ++ "/" ++ rel) with
                  | some d => if d ≠ "" then
                      [{ type := "modified", file := filepath, diff := d }] else []
                  | none => []
                else []
              (recs, setSnap snaps filepath
                { hash := current_hash, lines := current_lines, is_binary := false })
            else ([], snaps)

/-- Fold of `checkFile` over a scanned file list. -/
def checkFiles (fs : FileSystem) (w : FileSystemWatcher) :
    List String → Snapshots → List FileChange × Snapshots
  | [], snaps => ([], snaps)
  | f :: rest, snaps =>
    let step := checkFile fs w snaps f
    let next := checkFiles fs w rest step.2
    (step.1 ++ next.1, next.2)

/-- Model of `check_for_changes`: scan the environment's file list,
threading the snapshot map. -/
def check_for_changes (fs : FileSystem) (w : FileSystemWatcher) (snaps : Snapshots) :
    List FileChange × Snapshots :=
  checkFiles fs w fs.files snaps

/-! ### Properties of the major-change classifier -/

/-- A whitespace-only line normalizes to the empty string when the
classifier is enabled. -/
theorem normalize_line_blank (w : FileSystemWatcher) (hmaj : w.major_changes_only = true)
    (b : String) (hb : pyStrip b = "") :
    normalize_line w b = "" := by
  rw [normalize_line]
  simp [hmaj, hb]

/-- Nothing of a list is in itself only when filtered away: the set
difference of a list with itself is empty. -/
theorem setDiff_self (xs : List String) : setDiff xs xs = [] := by
  simp only [setDiff, List.filter_eq_nil_iff]
  intro a ha
  simp [ha]

/-- Zipping a list with itself extended by a suffix truncates to the
self-zip. -/
theorem zip_append_self {β : Type} (l e : List β) : l.zip (l ++ e) = l.zip l := by
  induction l with
  | nil => simp
  | cons x xs ih => simp [List.zip_cons_cons, ih]

/-- A predicate that rejects every reflexive pair rejects every pair of a
self-zip. -/
theorem zip_self_any_false {β : Type} (l : List β) (g : β × β → Bool)
    (hg : ∀ x, g (x, x) = false) : (l.zip l).any g = false := by
  induction l with
  | nil => rfl
  | cons x xs ih => simp [List.zip_cons_cons, List.any_cons, hg x, ih]

/-- General form of the appended-blank-lines property: with the classifier
enabled and a positive line minimum, appending only blank lines is a minor
change. -/
theorem appended_blanks_minor (w : FileSystemWatcher)
    (hmaj : w.major_changes_only = true) (hmin : 1 ≤ w.min_lines_changed) :
    ∀ (old_lines blank_lines : List String) (path : String),
      (∀ b ∈ blank_lines, pyStrip b = "") →
      is_major_change w old_lines (old_lines ++ blank_lines) path = false := by
  intro old_lines blank_lines path hblank
  have hfilter : (blank_lines.map (normalize_line w)).filter (fun l => l ≠ "") = [] := by
    rw [List.filter_eq_nil_iff]
    intro a ha
    rcases List.mem_map.mp ha with ⟨b, hb, rfl⟩
    simp [normalize_line_blank w hmaj b (hblank b hb)]
  have hsets : distinctNonEmpty (old_lines.map (normalize_line w)
        ++ blank_lines.map (normalize_line w)) =
      distinctNonEmpty (old_lines.map (normalize_line w)) := by
    simp only [distinctNonEmpty, List.filter_append, hfilter, List.append_nil]
  rw [is_major_change]
  simp only [hmaj, not_true, if_false, List.map_append]
  rw [hsets, setDiff_self]
  have hA : ¬ (pySplitextExt path ∈ codeExtensions ∧
      (([] : List String) ++ ([] : List String)).any
        (fun line => code_keywords.any
          (fun kw => containsSub kw.toList (pyLower line).toList)) = true) := by
    simp
  rw [if_neg hA]
  have hB : ¬ (w.min_lines_changed ≤ ([] : List String).length + ([] : List String).length) := by
    simp
    omega
  rw [if_neg hB]
  rw [zip_append_self]
  refine zip_self_any_false _ _ ?_
  intro x
  simp

/-- Claim C6 as amended: with major-change filtering disabled every change
is major; with it enabled, a diff whose distinct added normalized lines
include one containing `"def "` (case-insensitively) in a recognized code
file is major regardless of the configured minimum; and a diff differing
only by blank lines appended at the end is minor under the default
thresholds. -/
theorem claim_C6_major_classifier :
    (∀ (w : FileSystemWatcher) (old_lines new_lines : List String) (path : String),
      w.major_changes_only = false → is_major_change w old_lines new_lines path = true)
  ∧ (∀ (w : FileSystemWatcher) (old_lines new_lines : List String) (path : String),
      w.major_changes_only = true →
      pySplitextExt path ∈ codeExtensions →
      (∃ line ∈ setDiff (distinctNonEmpty (new_lines.map (normalize_line w)))
          (distinctNonEmpty (old_lines.map (normalize_line w))),
        containsSub "def ".toList (pyLower line).toList = true) →
      is_major_change w old_lines new_lines path = true)
  ∧ (∀ (old_lines blank_lines : List String) (path : String),
      (∀ b ∈ blank_lines, pyStrip b = "") →
      is_major_change defaultMajorWatcher old_lines (old_lines ++ blank_lines) path = false) := by
  refine ⟨?_, ?_, ?_⟩
  · intro w old_lines new_lines path h
    simp [is_major_change, h]
  · intro w old_lines new_lines path hmaj hext ⟨line, hline, hkw⟩
    have hany : (setDiff (distinctNonEmpty (new_lines.map (normalize_line w)))
          (distinctNonEmpty (old_lines.map (normalize_line w)))
        ++ setDiff (distinctNonEmpty (old_lines.map (normalize_line w)))
          (distinctNonEmpty (new_lines.map (normalize_line w)))).any
        (fun l => code_keywords.any
          (fun kw => containsSub kw.toList (pyLower l).toList)) = true := by
      refine List.any_eq_true.mpr ⟨line, List.mem_append_left _ hline, ?_⟩
      refine List.any_eq_true.mpr ⟨"def ", ?_, hkw⟩
      simp [code_keywords]
    rw [is_major_change]
    simp only [hmaj, not_true, if_false]
    rw [if_pos ⟨hext, hany⟩]
  · intro old_lines blank_lines path hblank
    exact appended_blanks_minor defaultMajorWatcher rfl (by norm_num [defaultMajorWatcher])
      old_lines blank_lines path hblank

/-- Witness for C6 at concrete inputs: a disabled classifier calls a
trivial change major, an added `def` line is major below the line minimum,
and appended blank lines are minor. -/
theorem claim_C6_major_classifier_witness :
    is_major_change ⟨false, 3, mkRat 7 10⟩ ["q"] ["q"] "x.txt" = true
  ∧ is_major_change defaultMajorWatcher [] ["def foo():"] "x.py" = true
  ∧ is_major_change defaultMajorWatcher ["a"] (["a"] ++ ["", "  "]) "f.py" = false := by
  refine ⟨?_, ?_, ?_⟩
  · exact claim_C6_major_classifier.1 ⟨false, 3, mkRat 7 10⟩ ["q"] ["q"] "x.txt" rfl
  · exact claim_C6_major_classifier.2.1 defaultMajorWatcher [] ["def foo():"] "x.py" rfl
      (by decide) ⟨"def foo():", by decide, by decide⟩
  · exact claim_C6_major_classifier.2.2 ["a"] ["", "  "] "f.py" (by decide)

/-- Claim C6 counterexample: a diff that only inserts one blank line ahead
of an unchanged line is classified MAJOR under the default thresholds —
the positional pairing of `is_major_change`'s similarity loop compares
`"a"` against the inserted blank's normalization `""` (ratio 0 < 0.7) —
whereas the claim calls every blank-line-only diff minor. -/
theorem claim_C6_blank_insertion_major :
    is_major_change defaultMajorWatcher ["a"] ["", "a"] "f.py" = true := by decide

/-! ### Idempotence of the scan -/

/-- A path is settled in a snapshot map when the map already carries its
current fingerprint — for every readable, resolvable file. -/
def Settled (fs : FileSystem) (snaps : Snapshots) (p : String) : Prop :=
  ∀ h, fs.md5 p = some h → fs.watch_dir p ≠ none →
    (fs.is_binary p = true ∨ fs.content p ≠ none) →
    ∃ s, snaps p = some s ∧ s.hash = h

/-- After a file is processed it is settled: every branch that could emit
also refreshes the snapshot to the current hash, and the skip branches are
outside `Settled`'s premises. -/
theorem checkFile_settles (fs : FileSystem) (w : FileSystemWatcher)
    (snaps : Snapshots) (p : String) :
    Settled fs ((checkFile fs w snaps p).2) p := by
  intro h hmd5 hdir hread
  cases hm : fs.md5 p with
  | none => rw [hm] at hmd5; cases hmd5
  | some current_hash =>
    rw [hm] at hmd5
    injection hmd5 with hh
    subst hh
    cases hd : fs.watch_dir p with
    | none => exact absurd hd hdir
    | some watch_dir =>
      simp only [checkFile, hm, hd]
      cases hbin : fs.is_binary p with
      | true =>
        simp only [hbin, if_true]
        cases hsn : snaps p with
        | none =>
          exact ⟨{ hash := current_hash, lines := [], is_binary := true },
            by simp [setSnap], rfl⟩
        | some snap =>
          by_cases hne : snap.hash ≠ current_hash
          · simp only [if_pos hne]
            exact ⟨{ hash := current_hash, lines := [], is_binary := true },
              by simp [setSnap], rfl⟩
          · simp only [if_neg hne]
            push_neg at hne
            exact ⟨snap, hsn, hne⟩
      | false =>
        simp only [hbin, Bool.false_eq_true, if_false]
        cases hc : fs.content p with
        | none =>
          rcases hread with hb | hc'
          · rw [hbin] at hb; cases hb
          · exact absurd hc hc'
        | some current_lines =>
          cases hsn : snaps p with
          | none =>
            exact ⟨{ hash := current_hash, lines := current_lines, is_binary := false },
              by simp [setSnap], rfl⟩
          | some snap =>
            by_cases hne : snap.hash ≠ current_hash
            · simp only [if_pos hne]
              exact ⟨{ hash := current_hash, lines := current_lines, is_binary := false },
                by simp [setSnap], rfl⟩
            · simp only [if_neg hne]
              push_neg at hne
              exact ⟨snap, hsn, hne⟩

/-- Processing one file never touches another file's snapshot. -/
theorem checkFile_other (fs : FileSystem) (w : FileSystemWatcher)
    (snaps : Snapshots) (p q : String) (hq : q ≠ p) :
    (checkFile fs w snaps p).2 q = snaps q := by
  cases hm : fs.md5 p with
  | none => simp only [checkFile, hm]
  | some current_hash =>
    cases hd : fs.watch_dir p with
    | none => simp only [checkFile, hm, hd]
    | some watch_dir =>
      simp only [checkFile, hm, hd]
      cases hbin : fs.is_binary p with
      | true =>
        simp only [hbin, if_true]
        cases hsn : snaps p with
        | none => simp [setSnap, hq]
        | some snap =>
          by_cases hne : snap.hash ≠ current_hash
          · simp [if_pos hne, setSnap, hq]
          · simp [if_neg hne]
      | false =>
        simp only [hbin, Bool.false_eq_true, if_false]
        cases hc : fs.content p with
        | none => rfl
        | some current_lines =>
          cases hsn : snaps p with
          | none => simp [setSnap, hq]
          | some snap =>
            by_cases hne : snap.hash ≠ current_hash
            · simp [if_pos hne, setSnap, hq]
            · simp [if_neg hne]

/-- Processing a settled file is a no-op: the fingerprint comparison sees
no change, so nothing is emitted and the map is returned as is. -/
theorem checkFile_noop (fs : FileSystem) (w : FileSystemWatcher)
    (snaps : Snapshots) (p : String) (hset : Settled fs snaps p) :
    checkFile fs w snaps p = ([], snaps) := by
  cases hm : fs.md5 p with
  | none => simp only [checkFile, hm]
  | some current_hash =>
    cases hd : fs.watch_dir p with
    | none => simp only [checkFile, hm, hd]
    | some watch_dir =>
      simp only [checkFile, hm, hd]
      cases hbin : fs.is_binary p with
      | true =>
        obtain ⟨s, hsnap, hhash⟩ := hset current_hash hm (by simp [hd]) (Or.inl hbin)
        simp only [hbin, if_true, hsnap]
        have hne : ¬ s.hash ≠ current_hash := by simp [hhash]
        simp only [if_neg hne]
      | false =>
        simp only [hbin, Bool.false_eq_true, if_false]
        cases hc : fs.content p with
        | none => rfl
        | some current_lines =>
          obtain ⟨s, hsnap, hhash⟩ := hset current_hash hm (by simp [hd])
            (Or.inr (by simp [hc]))
          simp only [hsnap]
          have hne : ¬ s.hash ≠ current_hash := by simp [hhash]
          simp only [if_neg hne]

/-- Being settled survives the processing of any file. -/
theorem checkFile_preserves_settled (fs : FileSystem) (w : FileSystemWatcher)
    (snaps : Snapshots) (p q : String) (hset : Settled fs snaps p) :
    Settled fs ((checkFile fs w snaps q).2) p := by
  by_cases hpq : q = p
  · subst hpq
    exact checkFile_settles fs w snaps q
  · intro h hm hd hread
    rw [checkFile_other fs w snaps q p (fun hh => hpq hh.symm)]
    exact hset h hm hd hread

/-- Being settled survives a whole scan. -/
theorem checkFiles_preserves_settled (fs : FileSystem) (w : FileSystemWatcher)
    (p : String) :
    ∀ (files : List String) (snaps : Snapshots), Settled fs snaps p →
      Settled fs ((checkFiles fs w files snaps).2) p := by
  intro files
  induction files with
  | nil => intro snaps hset; exact hset
  | cons f rest ih =>
    intro snaps hset
    exact ih _ (checkFile_preserves_settled fs w snaps p f hset)

/-- After one scan, every scanned file is settled. -/
theorem checkFiles_settles (fs : FileSystem) (w : FileSystemWatcher) :
    ∀ (files : List String) (snaps : Snapshots), ∀ p ∈ files,
      Settled fs ((checkFiles fs w files snaps).2) p := by
  intro files
  induction files with
  | nil => intro snaps p hp; cases hp
  | cons f rest ih =>
    intro snaps p hp
    rcases List.mem_cons.mp hp with rfl | hp'
    · exact checkFiles_preserves_settled fs w p rest _ (checkFile_settles fs w snaps p)
    · exact ih _ p hp'

/-- A scan over settled files emits nothing and keeps the map. -/
theorem checkFiles_noop (fs : FileSystem) (w : FileSystemWatcher) :
    ∀ (files : List String) (snaps : Snapshots),
      (∀ p ∈ files, Settled fs snaps p) →
      checkFiles fs w files snaps = ([], snaps) := by
  intro files
  induction files with
  | nil => intro snaps _; rfl
  | cons f rest ih =>
    intro snaps hall
    have hstep := checkFile_noop fs w snaps f (hall f (List.Mem.head _))
    rw [checkFiles, hstep]
    rw [ih snaps (fun p hp => hall p (List.Mem.tail _ hp))]
    rfl

/-- Claim C8: scanning is idempotent — for every file-system state,
watcher configuration and snapshot map, running `check_for_changes` twice
with no file contents modified in between (the same file-system
environment both times) produces zero change records on the second run. -/
theorem claim_C8_scan_idempotent (fs : FileSystem) (w : FileSystemWatcher)
    (snaps : Snapshots) :
    (check_for_changes fs w (check_for_changes fs w snaps).2).1 = [] := by
  rw [check_for_changes, check_for_changes,
    checkFiles_noop fs w fs.files _ (fun p hp => checkFiles_settles fs w fs.files snaps p hp)]

/-! ### Applying a unified diff

The spec's round-trip property (§8) is about applying the produced diff.
`applyUnifiedDiff` below is the standard patch semantics over the diff's
lines: skip the two file headers; an `@@` hunk header positions the cursor
in the old file (copying the untouched lines before it); a context or `-`
line must match the old file at the cursor; context and `+` lines are
emitted.  It fails (`none`) on any mismatch.
-/

/-- Parse a non-empty all-digit character list (the `int(...)` of a range
part). -/
def parseNatChars (cs : List Char) : Option Nat :=
  match cs with
  | [] => none
  | _ =>
    cs.foldl (fun acc c =>
      match acc with
      | none => none
      | some v => if c.isDigit then some (v * 10 + (c.toNat - 48)) else none)
      (some 0)

/-- Parse one `start[,count]` range of a hunk header; a missing count
means 1. -/
def parseRangeChars (cs : List Char) : Option (Nat × Nat) :=
  let before := cs.takeWhile (fun c => c ≠ ',')
  match cs.dropWhile (fun c => c ≠ ',') with
  | [] => (parseNatChars before).map (fun x => (x, 1))
  | _ :: after =>
    match parseNatChars before, parseNatChars after with
    | some x, some y => some (x, y)
    | _, _ => none

/-- Patch interpreter over the hunk and body lines of a unified diff. -/
def applyGo (old : List String) : List String → Nat → List String → Option (List String)
  | [], cur, acc => if cur ≤ old.length then some (acc ++ old.drop cur) else none
  | line :: rest, cur, acc =>
    match line.toList with
    | '@' :: '@' :: ' ' :: '-' :: hrest =>
      match parseRangeChars (hrest.takeWhile (fun c => c ≠ ' ')) with
      | none => none
      | some (x, y) =>
        let start0 := if y = 0 then x else x - 1
        if cur ≤ start0 ∧ start0 ≤ old.length then
          applyGo old rest start0 (acc ++ ((old.drop cur).take (start0 - cur)))
        else none
    | ' ' :: content =>
      match old.get? cur with
      | some l => if l = String.mk content then applyGo old rest (cur + 1) (acc ++ [l]) else none
      | none => none
    | '-' :: content =>
      match old.get? cur with
      | some l => if l = String.mk content then applyGo old rest (cur + 1) acc else none
      | none => none
    | '+' :: content => applyGo old rest cur (acc ++ [String.mk content])
    | _ => none

/-- Apply a unified diff, given as its list of lines, to the old file's
lines. -/
def applyUnifiedDiff (old : List String) (diff_lines : List String) : Option (List String) :=
  match diff_lines with
  | _ :: _ :: rest => applyGo old rest 0 []
  | _ => none

/-! ### Round-trip correctness: matching blocks are genuine matches -/

section MatcherCorrectness

variable {α : Type} [DecidableEq α]

/-- Two equally-long slices coincide: `a[i:i+k] == b[j:j+k]`. -/
def SlicesEq (a b : List α) (i j k : Nat) : Prop :=
  (a.drop i).take k = (b.drop j).take k

theorem slicesEq_zero (a b : List α) (i j : Nat) : SlicesEq a b i j 0 := rfl

/-- Extend a slice match by one equal element on the right. -/
theorem slicesEq_extend_right {a b : List α} {i j k : Nat} {x : α}
    (h : SlicesEq a b i j k) (ha : a.get? (i + k) = some x) (hb : b.get? (j + k) = some x) :
    SlicesEq a b i j (k + 1) := by
  rw [SlicesEq, List.take_succ, List.take_succ]
  rw [SlicesEq] at h
  rw [h]
  have ha' : (a.drop i)[k]? = some x := by
    rw [List.getElem?_drop, ← List.get?_eq_getElem?]
    exact ha
  have hb' : (b.drop j)[k]? = some x := by
    rw [List.getElem?_drop, ← List.get?_eq_getElem?]
    exact hb
  rw [ha', hb']

/-- Extend a slice match by one equal element on the left. -/
theorem slicesEq_extend_left {a b : List α} {i j k : Nat} {x : α}
    (h : SlicesEq a b (i + 1) (j + 1) k) (ha : a.get? i = some x) (hb : b.get? j = some x) :
    SlicesEq a b i j (k + 1) := by
  have hia : i < a.length := (List.get?_eq_some.mp ha).1
  have hjb : j < b.length := (List.get?_eq_some.mp hb).1
  have hxa : a[i] = x := by
    have := List.get?_eq_getElem? a i
    rw [this, List.getElem?_eq_getElem hia] at ha
    exact Option.some_injective _ ha
  have hxb : b[j] = x := by
    have := List.get?_eq_getElem? b j
    rw [this, List.getElem?_eq_getElem hjb] at hb
    exact Option.some_injective _ hb
  rw [SlicesEq, List.drop_eq_getElem_cons hia, List.drop_eq_getElem_cons hjb,
    List.take_succ_cons, List.take_succ_cons, hxa, hxb, h]

theorem slicesEq_append {a b : List α} {i j k m : Nat}
    (h1 : SlicesEq a b i j k) (h2 : SlicesEq a b (i + k) (j + k) m) :
    SlicesEq a b i j (k + m) := by
  rw [SlicesEq, List.take_add, List.take_add]
  rw [SlicesEq] at h1 h2
  rw [List.drop_drop, List.drop_drop, h1, h2]

/-- A contiguous sub-slice of matching slices matches. -/
theorem slicesEq_sub {a b : List α} {i j k : Nat} (h : SlicesEq a b i j k)
    {d m : Nat} (hdm : d + m ≤ k) : SlicesEq a b (i + d) (j + d) m := by
  rw [SlicesEq] at h ⊢
  have ha : (a.drop (i + d)).take m = (((a.drop i).take k).drop d).take m := by
    rw [List.drop_take, ← List.drop_drop]
    rw [List.take_take]
    congr 1
    omega
  have hb : (b.drop (j + d)).take m = (((b.drop j).take k).drop d).take m := by
    rw [List.drop_take, ← List.drop_drop]
    rw [List.take_take]
    congr 1
    omega
  rw [ha, hb, h]

/-- Indices reported by `b2j` really hold the element. -/
theorem b2j_sound {b : List α} {x : α} {j : Nat} (h : j ∈ b2j b x) :
    b.get? j = some x := by
  rw [b2j] at h
  by_cases hpop : 200 ≤ b.length ∧ b.length / 100 + 1 < b.count x
  · rw [if_pos hpop] at h
    cases h
  · rw [if_neg hpop] at h
    rw [b2jIndices] at h
    have := (List.mem_filter.mp h).2
    exact of_decide_eq_true this

/-- A true `matchAt` exposes the common element. -/
theorem matchAt_eq {a b : List α} {i j : Nat} (h : matchAt a b i j = true) :
    ∃ x, a.get? i = some x ∧ b.get? j = some x := by
  rw [matchAt] at h
  cases ha : a.get? i with
  | none => rw [ha] at h; cases h
  | some x =>
    cases hb : b.get? j with
    | none => rw [ha, hb] at h; cases h
    | some y =>
      rw [ha, hb] at h
      have hxy := of_decide_eq_true h
      subst hxy
      exact ⟨x, rfl, rfl⟩

/-- Invariant of one `j2len` column map whose row ended at `iend - 1`: a
non-zero entry `f j = k` records a genuine match of the last `k` elements
up to `a[iend-1]` and `b[j]`, inside the window. -/
def ColInv (a b : List α) (alo blo bhi iend : Nat) (f : Nat → Nat) : Prop :=
  ∀ j, f j ≠ 0 →
    j < bhi ∧ f j ≤ iend ∧ f j ≤ j + 1 ∧ alo ≤ iend - f j ∧ blo ≤ j + 1 - f j ∧
    SlicesEq a b (iend - f j) (j + 1 - f j) (f j)

/-- Soundness of a best-candidate triple: genuine match within
`[alo, m_hi) × [blo, bhi)`. -/
def BestOK (a b : List α) (alo blo bhi m_hi : Nat) (best : Nat × Nat × Nat) : Prop :=
  alo ≤ best.1 ∧ best.1 + best.2.2 ≤ m_hi ∧ blo ≤ best.2.1 ∧
    best.2.1 + best.2.2 ≤ bhi ∧ SlicesEq a b best.1 best.2.1 best.2.2

theorem bestOK_mono {a b : List α} {alo blo bhi m m' : Nat} {best : Nat × Nat × Nat}
    (h : BestOK a b alo blo bhi m best) (hm : m ≤ m') : BestOK a b alo blo bhi m' best :=
  ⟨h.1, le_trans h.2.1 hm, h.2.2.1, h.2.2.2.1, h.2.2.2.2⟩

/-- One inner sweep of `find_longest_match` preserves both invariants. -/
theorem flmRow_inv (a b : List α) (alo blo bhi i : Nat) (ai : α)
    (hai : a.get? i = some ai) (halo : alo ≤ i) :
    ∀ (js : List Nat) (newf : Nat → Nat) (best : Nat × Nat × Nat) (prev : Nat → Nat),
      (∀ j ∈ js, b.get? j = some ai) →
      ColInv a b alo blo bhi i prev →
      ColInv a b alo blo bhi (i + 1) newf →
      BestOK a b alo blo bhi (i + 1) best →
      ColInv a b alo blo bhi (i + 1) (flmRow blo bhi prev i js newf best).1
      ∧ BestOK a b alo blo bhi (i + 1) (flmRow blo bhi prev i js newf best).2 := by
  intro js
  induction js with
  | nil => intro newf best prev _ _ hnew hbest; exact ⟨hnew, hbest⟩
  | cons j js ih =>
    intro newf best prev hjs hprev hnew hbest
    by_cases hjlo : j < blo
    · rw [flmRow, if_pos hjlo]
      exact ih newf best prev (fun j' hj' => hjs j' (List.Mem.tail _ hj')) hprev hnew hbest
    · by_cases hjhi : bhi ≤ j
      · rw [flmRow, if_neg hjlo, if_pos hjhi]
        exact ⟨hnew, hbest⟩
      · rw [flmRow, if_neg hjlo, if_neg hjhi]
        push_neg at hjlo hjhi
        have hbj : b.get? j = some ai := hjs j (List.Mem.head _)
        -- facts about the new entry k
        have hk : ∀ hks : Nat, hks = prevLen prev j + 1 →
            hks ≤ i + 1 ∧ hks ≤ j + 1 ∧ alo ≤ i + 1 - hks ∧ blo ≤ j + 1 - hks ∧
            SlicesEq a b (i + 1 - hks) (j + 1 - hks) hks := by
          intro hks hkdef
          rw [prevLen] at hkdef
          by_cases hj0 : j = 0
          · rw [if_pos hj0] at hkdef
            subst hkdef hj0
            refine ⟨by omega, by omega, by simpa using halo, by simpa using hjlo, ?_⟩
            simpa using slicesEq_extend_right (slicesEq_zero a b i 0) (by simpa using hai)
              (by simpa using hbj)
          · rw [if_neg hj0] at hkdef
            by_cases hm0 : prev (j - 1) = 0
            · rw [hm0] at hkdef
              subst hkdef
              refine ⟨by omega, by omega, by simpa using halo, by simpa using hjlo, ?_⟩
              simpa using slicesEq_extend_right (slicesEq_zero a b i j) (by simpa using hai)
                (by simpa using hbj)
            · obtain ⟨hjb, hmi, hmj, hmaloi, hmbloj, hmsl⟩ := hprev (j - 1) hm0
              subst hkdef
              set m := prev (j - 1) with hmdef
              have hj1 : j - 1 + 1 = j := by omega
              rw [hj1] at hmj hmbloj hmsl
              refine ⟨by omega, by omega, by omega, by omega, ?_⟩
              have hstart_a : i + 1 - (m + 1) = i - m := by omega
              have hstart_b : j + 1 - (m + 1) = j - m := by omega
              rw [hstart_a, hstart_b]
              have hia : i - m + m = i := by omega
              have hjb' : j - m + m = j := by omega
              exact slicesEq_append hmsl (by
                rw [hia, hjb']
                simpa using slicesEq_extend_right (slicesEq_zero a b i j)
                  (by simpa using hai) (by simpa using hbj))
        obtain ⟨hki, hkj, hkaloi, hkbloj, hksl⟩ := hk (prevLen prev j + 1) rfl
        refine ih _ _ prev (fun j' hj' => hjs j' (List.Mem.tail _ hj')) hprev ?_ ?_
        · intro j' hj'
          by_cases hj'j : j' = j
          · subst hj'j
            simp only [if_pos rfl]
            exact ⟨hjhi, hki, hkj, hkaloi, hkbloj, hksl⟩
          · simp only [if_neg hj'j] at hj' ⊢
            exact hnew j' hj'
        · by_cases himp : best.2.2 < prevLen prev j + 1
          · simp only [if_pos himp]
            exact ⟨hkaloi, by simp; omega, hkbloj, by simp; omega, hksl⟩
          · simp only [if_neg himp]
            exact hbest

/-- The row loop of `find_longest_match` keeps the best candidate sound. -/
theorem flmRows_inv (a b : List α) (alo blo bhi : Nat) :
    ∀ (cnt i : Nat) (j2len : Nat → Nat) (best : Nat × Nat × Nat),
      alo ≤ i →
      ColInv a b alo blo bhi i j2len →
      BestOK a b alo blo bhi i best →
      BestOK a b alo blo bhi (i + cnt) (flmRows a b blo bhi i cnt j2len best) := by
  intro cnt
  induction cnt with
  | zero => intro i j2len best _ _ hbest; simpa using hbest
  | succ cnt ih =>
    intro i j2len best halo hcol hbest
    rw [flmRows]
    cases hai : a.get? i with
    | none =>
      have h := ih (i + 1) (fun _ => 0) best (by omega)
        (fun j hj => absurd rfl hj) (bestOK_mono hbest (by omega))
      simpa [show i + 1 + cnt = i + (cnt + 1) by omega] using h
    | some ai =>
      obtain ⟨hcol', hbest'⟩ := flmRow_inv a b alo blo bhi i ai hai halo
        (b2j b ai) (fun _ => 0) best j2len (fun j hj => b2j_sound hj) hcol
        (fun j hj => absurd rfl hj) (bestOK_mono hbest (by omega))
      have h := ih (i + 1) _ _ (by omega) hcol' hbest'
      simpa [show i + 1 + cnt = i + (cnt + 1) by omega] using h

/-- The left extension loop preserves soundness and the match's two end
positions. -/
theorem extendLeft_ok (a b : List α) (alo blo : Nat) :
    ∀ (fuel besti bestj bestsize : Nat),
      alo ≤ besti → blo ≤ bestj → SlicesEq a b besti bestj bestsize →
      let r := extendLeft a b alo blo fuel besti bestj bestsize
      alo ≤ r.1 ∧ blo ≤ r.2.1 ∧ r.1 + r.2.2 = besti + bestsize ∧
        r.2.1 + r.2.2 = bestj + bestsize ∧ SlicesEq a b r.1 r.2.1 r.2.2 := by
  intro fuel
  induction fuel with
  | zero => intro besti bestj bestsize h1 h2 h3; exact ⟨h1, h2, rfl, rfl, h3⟩
  | succ fuel ih =>
    intro besti bestj bestsize h1 h2 h3
    rw [extendLeft]
    by_cases hc : alo < besti ∧ blo < bestj ∧ matchAt a b (besti - 1) (bestj - 1) = true
    · rw [if_pos hc]
      obtain ⟨x, hxa, hxb⟩ := matchAt_eq hc.2.2
      have hsl : SlicesEq a b (besti - 1) (bestj - 1) (bestsize + 1) := by
        have hi1 : besti - 1 + 1 = besti := by omega
        have hj1 : bestj - 1 + 1 = bestj := by omega
        exact slicesEq_extend_left (by rw [hi1, hj1]; exact h3) hxa hxb
      have := ih (besti - 1) (bestj - 1) (bestsize + 1) (by omega) (by omega) hsl
      refine ⟨this.1, this.2.1, ?_, ?_, this.2.2.2.2⟩
      · rw [this.2.2.1]; omega
      · rw [this.2.2.2.1]; omega
    · rw [if_neg hc]
      exact ⟨h1, h2, rfl, rfl, h3⟩

/-- The right extension loop preserves soundness and the window bounds. -/
theorem extendRight_ok (a b : List α) (ahi bhi besti bestj : Nat) :
    ∀ (fuel bestsize : Nat),
      besti + bestsize ≤ ahi → bestj + bestsize ≤ bhi →
      SlicesEq a b besti bestj bestsize →
      besti + extendRight a b ahi bhi besti bestj fuel bestsize ≤ ahi ∧
      bestj + extendRight a b ahi bhi besti bestj fuel bestsize ≤ bhi ∧
      SlicesEq a b besti bestj (extendRight a b ahi bhi besti bestj fuel bestsize) := by
  intro fuel
  induction fuel with
  | zero => intro bestsize h1 h2 h3; exact ⟨h1, h2, h3⟩
  | succ fuel ih =>
    intro bestsize h1 h2 h3
    rw [extendRight]
    by_cases hc : besti + bestsize < ahi ∧ bestj + bestsize < bhi
        ∧ matchAt a b (besti + bestsize) (bestj + bestsize) = true
    · rw [if_pos hc]
      obtain ⟨x, hxa, hxb⟩ := matchAt_eq hc.2.2
      exact ih (bestsize + 1) (by omega) (by omega) (slicesEq_extend_right h3 hxa hxb)
    · rw [if_neg hc]
      exact ⟨h1, h2, h3⟩

/-- Soundness of `find_longest_match`: the reported block is a genuine
common slice inside the window. -/
theorem find_longest_match_ok (a b : List α) (alo ahi blo bhi : Nat)
    (ha : alo ≤ ahi) (hb : blo ≤ bhi) :
    let m := find_longest_match a b alo ahi blo bhi
    alo ≤ m.1 ∧ m.1 + m.2.2 ≤ ahi ∧ blo ≤ m.2.1 ∧ m.2.1 + m.2.2 ≤ bhi ∧
      SlicesEq a b m.1 m.2.1 m.2.2 := by
  have hrows := flmRows_inv a b alo blo bhi (ahi - alo) alo (fun _ => 0) (alo, blo, 0)
    (le_refl _) (fun j hj => absurd rfl hj)
    ⟨le_refl _, by simp, le_refl _, by simpa using hb, slicesEq_zero a b alo blo⟩
  set best := flmRows a b blo bhi alo (ahi - alo) (fun _ => 0) (alo, blo, 0) with hbestdef
  have hbound : alo + (ahi - alo) = ahi := by omega
  rw [hbound] at hrows
  obtain ⟨hb1, hb2, hb3, hb4, hb5⟩ := hrows
  have hleft := extendLeft_ok a b alo blo best.1 best.1 best.2.1 best.2.2 hb1 hb3 hb5
  set left := extendLeft a b alo blo best.1 best.1 best.2.1 best.2.2 with hleftdef
  obtain ⟨hl1, hl2, hl3, hl4, hl5⟩ := hleft
  have hright := extendRight_ok a b ahi bhi left.1 left.2.1 ahi left.2.2
    (by omega) (by omega) hl5
  exact ⟨hl1, hright.1, hl2, hright.2.1, hright.2.2⟩

/-- Chained non-empty genuine blocks inside a window: each block starts at
or after the low bound, is a genuine common slice, ends within the high
bound, and the rest continues from its end. -/
def BlocksChain (a b : List α) : Nat → Nat → List (Nat × Nat × Nat) → Nat → Nat → Prop
  | _, _, [], _, _ => True
  | lo_a, lo_b, m :: rest, hi_a, hi_b =>
    lo_a ≤ m.1 ∧ lo_b ≤ m.2.1 ∧ m.2.2 ≠ 0 ∧ m.1 + m.2.2 ≤ hi_a ∧ m.2.1 + m.2.2 ≤ hi_b ∧
    SlicesEq a b m.1 m.2.1 m.2.2 ∧
    BlocksChain a b (m.1 + m.2.2) (m.2.1 + m.2.2) rest hi_a hi_b

/-- Lower bounds of a block chain may be relaxed. -/
theorem blocksChain_mono_lo {a b : List α} {lo_a lo_b lo_a' lo_b' hi_a hi_b : Nat}
    {blocks : List (Nat × Nat × Nat)} (h : BlocksChain a b lo_a lo_b blocks hi_a hi_b)
    (ha : lo_a' ≤ lo_a) (hb : lo_b' ≤ lo_b) :
    BlocksChain a b lo_a' lo_b' blocks hi_a hi_b := by
  cases blocks with
  | nil => trivial
  | cons m rest =>
    obtain ⟨h1, h2, h3, h4, h5, h6, h7⟩ := h
    exact ⟨le_trans ha h1, le_trans hb h2, h3, h4, h5, h6, h7⟩

/-- Concatenation of block chains across a middle bound. -/
theorem blocksChain_append {a b : List α} {hi_a hi_b : Nat} :
    ∀ {xs ys : List (Nat × Nat × Nat)} {lo_a lo_b m_a m_b : Nat},
      BlocksChain a b lo_a lo_b xs m_a m_b →
      BlocksChain a b m_a m_b ys hi_a hi_b →
      lo_a ≤ m_a → lo_b ≤ m_b → m_a ≤ hi_a → m_b ≤ hi_b →
      BlocksChain a b lo_a lo_b (xs ++ ys) hi_a hi_b := by
  intro xs
  induction xs with
  | nil =>
    intro ys lo_a lo_b m_a m_b _ hys hla hlb _ _
    exact blocksChain_mono_lo hys hla hlb
  | cons m rest ih =>
    intro ys lo_a lo_b m_a m_b hxs hys hla hlb hma hmb
    obtain ⟨h1, h2, h3, h4, h5, h6, h7⟩ := hxs
    exact ⟨h1, h2, h3, le_trans h4 hma, le_trans h5 hmb, h6,
      ih h7 hys (by omega) (by omega) hma hmb⟩

/-- The recursive decomposition produces a chained list of genuine blocks
for any fuel. -/
theorem matchingBlocksGo_chain (a b : List α) :
    ∀ (fuel alo ahi blo bhi : Nat), alo ≤ ahi → blo ≤ bhi →
      BlocksChain a b alo blo (matchingBlocksGo a b fuel alo ahi blo bhi) ahi bhi := by
  intro fuel
  induction fuel with
  | zero => intro alo ahi blo bhi _ _; trivial
  | succ fuel ih =>
    intro alo ahi blo bhi ha hb
    rw [matchingBlocksGo]
    obtain ⟨hm1, hm2, hm3, hm4, hm5⟩ := find_longest_match_ok a b alo ahi blo bhi ha hb
    set m := find_longest_match a b alo ahi blo bhi with hmdef
    by_cases hk : m.2.2 = 0
    · rw [if_pos hk]; trivial
    · rw [if_neg hk]
      have hmid : BlocksChain a b m.1 m.2.1 (m :: (if m.1 + m.2.2 < ahi ∧ m.2.1 + m.2.2 < bhi
          then matchingBlocksGo a b fuel (m.1 + m.2.2) ahi (m.2.1 + m.2.2) bhi else []))
          ahi bhi := by
        refine ⟨le_refl _, le_refl _, hk, hm2, hm4, hm5, ?_⟩
        by_cases hr : m.1 + m.2.2 < ahi ∧ m.2.1 + m.2.2 < bhi
        · rw [if_pos hr]
          exact ih (m.1 + m.2.2) ahi (m.2.1 + m.2.2) bhi (by omega) (by omega)
        · rw [if_neg hr]; trivial
      by_cases hl : alo < m.1 ∧ blo < m.2.1
      · rw [if_pos hl, List.append_assoc]
        refine blocksChain_append (ih alo m.1 blo m.2.1 (by omega) (by omega)) ?_
          (by omega) (by omega) (by omega) (by omega)
        simpa using hmid
      · rw [if_neg hl]
        have := blocksChain_mono_lo hmid hm1 hm3
        simpa using this

/-- Soundness of a pending collapse candidate. -/
def PendOK (a b : List α) (lo_a lo_b hi_a hi_b : Nat) (p : Nat × Nat × Nat) : Prop :=
  lo_a ≤ p.1 ∧ lo_b ≤ p.2.1 ∧ p.1 + p.2.2 ≤ hi_a ∧ p.2.1 + p.2.2 ≤ hi_b ∧
    SlicesEq a b p.1 p.2.1 p.2.2

/-- The adjacency collapse preserves the chain. -/
theorem collapseGo_chain (a b : List α) (hi_a hi_b : Nat) :
    ∀ (rest : List (Nat × Nat × Nat)) (i1 j1 k1 lo_a lo_b : Nat),
      PendOK a b lo_a lo_b hi_a hi_b (i1, j1, k1) →
      BlocksChain a b (i1 + k1) (j1 + k1) rest hi_a hi_b →
      BlocksChain a b lo_a lo_b (collapseGo i1 j1 k1 rest) hi_a hi_b := by
  intro rest
  induction rest with
  | nil =>
    intro i1 j1 k1 lo_a lo_b hpend _
    rw [collapseGo]
    by_cases hk : k1 ≠ 0
    · rw [if_pos hk]
      exact ⟨hpend.1, hpend.2.1, hk, hpend.2.2.1, hpend.2.2.2.1, hpend.2.2.2.2, trivial⟩
    · rw [if_neg hk]; trivial
  | cons m2 rest ih =>
    intro i1 j1 k1 lo_a lo_b hpend hchain
    obtain ⟨hc1, hc2, hc3, hc4, hc5, hc6, hc7⟩ := hchain
    have hq1 : lo_a ≤ i1 := hpend.1
    have hq2 : lo_b ≤ j1 := hpend.2.1
    have hq3 : i1 + k1 ≤ hi_a := hpend.2.2.1
    have hq4 : j1 + k1 ≤ hi_b := hpend.2.2.2.1
    have hq5 : SlicesEq a b i1 j1 k1 := hpend.2.2.2.2
    rw [collapseGo]
    by_cases hadj : i1 + k1 = m2.1 ∧ j1 + k1 = m2.2.1
    · rw [if_pos hadj]
      obtain ⟨ha1, ha2⟩ := hadj
      have hpend' : PendOK a b lo_a lo_b hi_a hi_b (i1, j1, k1 + m2.2.2) := by
        refine ⟨hq1, hq2, ?_, ?_, ?_⟩
        · show i1 + (k1 + m2.2.2) ≤ hi_a
          omega
        · show j1 + (k1 + m2.2.2) ≤ hi_b
          omega
        · show SlicesEq a b i1 j1 (k1 + m2.2.2)
          exact slicesEq_append hq5 (by rw [ha1, ha2]; exact hc6)
      refine ih i1 j1 (k1 + m2.2.2) lo_a lo_b hpend' ?_
      have h1 : i1 + (k1 + m2.2.2) = m2.1 + m2.2.2 := by omega
      have h2 : j1 + (k1 + m2.2.2) = m2.2.1 + m2.2.2 := by omega
      rw [h1, h2]
      exact hc7
    · rw [if_neg hadj]
      by_cases hk : k1 ≠ 0
      · rw [if_pos hk]
        refine ⟨hq1, hq2, hk, hq3, hq4, hq5, ?_⟩
        exact ih m2.1 m2.2.1 m2.2.2 (i1 + k1) (j1 + k1) ⟨hc1, hc2, hc4, hc5, hc6⟩ hc7
      · rw [if_neg hk]
        push_neg at hk
        refine ih m2.1 m2.2.1 m2.2.2 lo_a lo_b ⟨?_, ?_, hc4, hc5, hc6⟩ hc7
        · show lo_a ≤ m2.1
          omega
        · show lo_b ≤ m2.2.1
          omega

/-- The collapsed matching blocks (without the sentinel) form a genuine
chain over the full sequences. -/
theorem matching_blocks_chain (a b : List α) :
    BlocksChain a b 0 0
      (collapseGo 0 0 0 (matchingBlocksGo a b (a.length + b.length + 1) 0 a.length 0 b.length))
      a.length b.length := by
  refine collapseGo_chain a b a.length b.length _ 0 0 0 0 0
    ⟨le_refl _, le_refl _, by simp, by simp, slicesEq_zero a b 0 0⟩ ?_
  simpa using matchingBlocksGo_chain a b (a.length + b.length + 1) 0 a.length 0 b.length
    (by simp) (by simp)

/-- Per-opcode soundness facts: an `equal` opcode names genuine
equally-long common slices, a `delete` opcode spans no `b`-range, an
`insert` opcode spans no `a`-range. -/
def OpFacts (a b : List α) (op : Opcode) : Prop :=
  (op.tag = Tag.equal →
    op.i2 - op.i1 = op.j2 - op.j1 ∧ SlicesEq a b op.i1 op.j1 (op.i2 - op.i1)) ∧
  (op.tag = Tag.delete → op.j1 = op.j2) ∧
  (op.tag = Tag.insert → op.i1 = op.i2)

/-- Chained opcodes from `(i, j)` to `(e1, e2)`: each opcode starts where
the cursor stands, stays within both sequences, satisfies the per-opcode
facts, and the chain ends exactly at `(e1, e2)`. -/
def GChain (a b : List α) : Nat → Nat → List Opcode → Nat → Nat → Prop
  | i, j, [], e1, e2 => i = e1 ∧ j = e2
  | i, j, op :: rest, e1, e2 =>
    op.i1 = i ∧ op.j1 = j ∧ i ≤ op.i2 ∧ j ≤ op.j2 ∧ op.i2 ≤ a.length ∧ op.j2 ≤ b.length ∧
    OpFacts a b op ∧
    GChain a b op.i2 op.j2 rest e1 e2

/-- Opcode chains concatenate across their meeting point. -/
theorem gchain_append {a b : List α} {e1 e2 : Nat} :
    ∀ {xs ys : List Opcode} {i j m1 m2 : Nat},
      GChain a b i j xs m1 m2 → GChain a b m1 m2 ys e1 e2 →
      GChain a b i j (xs ++ ys) e1 e2 := by
  intro xs
  induction xs with
  | nil =>
    intro ys i j m1 m2 hxs hys
    obtain ⟨rfl, rfl⟩ := hxs
    exact hys
  | cons op rest ih =>
    intro ys i j m1 m2 hxs hys
    obtain ⟨h1, h2, h3, h4, h5, h6, h7, h8⟩ := hxs
    exact ⟨h1, h2, h3, h4, h5, h6, h7, ih h8 hys⟩

/-- The chain ends after the cursor. -/
theorem gchain_le {a b : List α} :
    ∀ {g : List Opcode} {i j e1 e2 : Nat}, GChain a b i j g e1 e2 → i ≤ e1 ∧ j ≤ e2 := by
  intro g
  induction g with
  | nil =>
    intro i j e1 e2 h
    obtain ⟨rfl, rfl⟩ := h
    exact ⟨le_refl _, le_refl _⟩
  | cons op rest ih =>
    intro i j e1 e2 h
    obtain ⟨h1, h2, h3, h4, _, _, _, h8⟩ := h
    obtain ⟨ha, hb⟩ := ih h8
    exact ⟨le_trans h3 ha, le_trans h4 hb⟩

/-- A single opcode is a chain from its start to its end. -/
theorem gchain_single {a b : List α} (t : Tag) (i1 i2 j1 j2 : Nat)
    (h3 : i1 ≤ i2) (h4 : j1 ≤ j2) (h5 : i2 ≤ a.length) (h6 : j2 ≤ b.length)
    (h7 : OpFacts a b ⟨t, i1, i2, j1, j2⟩) :
    GChain a b i1 j1 [⟨t, i1, i2, j1, j2⟩] i2 j2 :=
  ⟨rfl, rfl, h3, h4, h5, h6, h7, rfl, rfl⟩

/-- A chain may start with an end-degenerate position change: the empty
chain is its own start and end. -/
theorem gchain_nil {a b : List α} {i j : Nat} : GChain a b i j [] i j := ⟨rfl, rfl⟩

/-- The opcodes generated from chained blocks (with the final sentinel)
are a chained opcode list over the full sequences. -/
theorem opcodesGo_gchain (a b : List α) :
    ∀ (blocks : List (Nat × Nat × Nat)) (i j : Nat),
      BlocksChain a b i j blocks a.length b.length →
      i ≤ a.length → j ≤ b.length →
      GChain a b i j (opcodesGo i j (blocks ++ [(a.length, b.length, 0)]))
        a.length b.length := by
  intro blocks
  induction blocks with
  | nil =>
    intro i j _ hi hj
    rw [List.nil_append, opcodesGo]
    have hrest : GChain a b a.length b.length (opcodesGo (a.length + 0) (b.length + 0) [])
        a.length b.length := by
      simp only [opcodesGo]
      exact gchain_nil
    by_cases h1 : i < a.length ∧ j < b.length
    · rw [if_pos h1]
      simp only [if_neg (by omega : ¬(0 ≠ 0)), List.append_nil]
      exact gchain_append (gchain_single Tag.replace i a.length j b.length (by omega)
        (by omega) (le_refl _) (le_refl _)
        ⟨fun h => (nomatch h), fun h => (nomatch h), fun h => (nomatch h)⟩) hrest
    · by_cases h2 : i < a.length
      · rw [if_neg h1, if_pos h2]
        simp only [if_neg (by omega : ¬(0 ≠ 0)), List.append_nil]
        have hjb : j = b.length := by omega
        subst hjb
        exact gchain_append (gchain_single Tag.delete i a.length b.length b.length
          (by omega) (le_refl _) (le_refl _) (le_refl _)
          ⟨fun h => (nomatch h), fun _ => rfl, fun h => (nomatch h)⟩) hrest
      · by_cases h3 : j < b.length
        · rw [if_neg h1, if_neg h2, if_pos h3]
          simp only [if_neg (by omega : ¬(0 ≠ 0)), List.append_nil]
          have hia : i = a.length := by omega
          subst hia
          exact gchain_append (gchain_single Tag.insert a.length a.length j b.length
            (le_refl _) (by omega) (le_refl _) (le_refl _)
            ⟨fun h => (nomatch h), fun h => (nomatch h), fun _ => rfl⟩) hrest
        · rw [if_neg h1, if_neg h2, if_neg h3]
          simp only [if_neg (by omega : ¬(0 ≠ 0)), List.append_nil, List.nil_append]
          simp only [opcodesGo]
          exact ⟨by omega, by omega⟩
  | cons blk blocks ih =>
    intro i j hchain hi hj
    obtain ⟨hc1, hc2, hc3, hc4, hc5, hc6, hc7⟩ := hchain
    rw [List.cons_append, opcodesGo]
    have hrest := ih (blk.1 + blk.2.2) (blk.2.1 + blk.2.2) hc7 (by omega) (by omega)
    have hequal : GChain a b blk.1 blk.2.1
        ([⟨Tag.equal, blk.1, blk.1 + blk.2.2, blk.2.1, blk.2.1 + blk.2.2⟩] ++
          opcodesGo (blk.1 + blk.2.2) (blk.2.1 + blk.2.2)
            (blocks ++ [(a.length, b.length, 0)])) a.length b.length := by
      refine gchain_append (gchain_single Tag.equal blk.1 (blk.1 + blk.2.2) blk.2.1
        (blk.2.1 + blk.2.2) (by omega) (by omega) (by omega) (by omega)
        ⟨fun _ => ⟨by show blk.1 + blk.2.2 - blk.1 = blk.2.1 + blk.2.2 - blk.2.1; omega, ?_⟩,
          fun h => (nomatch h), fun h => (nomatch h)⟩) hrest
      show SlicesEq a b blk.1 blk.2.1 (blk.1 + blk.2.2 - blk.1)
      have hk : blk.1 + blk.2.2 - blk.1 = blk.2.2 := by omega
      rw [hk]
      exact hc6
    rw [if_pos hc3]
    by_cases h1 : i < blk.1 ∧ j < blk.2.1
    · rw [if_pos h1, List.append_assoc]
      exact gchain_append (gchain_single Tag.replace i blk.1 j blk.2.1 (by omega)
        (by omega) (by omega) (by omega)
        ⟨fun h => (nomatch h), fun h => (nomatch h), fun h => (nomatch h)⟩) hequal
    · by_cases h2 : i < blk.1
      · rw [if_neg h1, if_pos h2, List.append_assoc]
        have hjb : j = blk.2.1 := by omega
        subst hjb
        exact gchain_append (gchain_single Tag.delete i blk.1 blk.2.1 blk.2.1
          (by omega) (le_refl _) (by omega) (by omega)
          ⟨fun h => (nomatch h), fun _ => rfl, fun h => (nomatch h)⟩) hequal
      · by_cases h3 : j < blk.2.1
        · rw [if_neg h1, if_neg h2, if_pos h3, List.append_assoc]
          have hia : i = blk.1 := by omega
          subst hia
          exact gchain_append (gchain_single Tag.insert blk.1 blk.1 j blk.2.1
            (le_refl _) (by omega) (by omega) (by omega)
            ⟨fun h => (nomatch h), fun h => (nomatch h), fun _ => rfl⟩) hequal
        · rw [if_neg h1, if_neg h2, if_neg h3, List.nil_append]
          have hia : i = blk.1 := by omega
          have hjb : j = blk.2.1 := by omega
          subst hia
          subst hjb
          exact hequal

/-- The opcodes of two sequences form a chain from `(0, 0)` to the two
lengths. -/
theorem get_opcodes_gchain (a b : List α) :
    GChain a b 0 0 (get_opcodes a b) a.length b.length := by
  rw [get_opcodes, get_matching_blocks]
  exact opcodesGo_gchain a b _ 0 0 (matching_blocks_chain a b) (by simp) (by simp)

/-- Trimming the leading context keeps a chain, at the cost of an
aligned equal gap from the origin. -/
theorem fixupHead_chain (n : Nat) {a b : List α} {codes : List Opcode} {E1 E2 : Nat}
    (h : GChain a b 0 0 codes E1 E2) :
    ∃ s0, GChain a b s0 s0 (fixupHead n codes) E1 E2 ∧
      SlicesEq a b 0 0 s0 ∧ s0 ≤ a.length ∧ s0 ≤ b.length := by
  cases codes with
  | nil =>
    exact ⟨0, by simpa [fixupHead] using h, slicesEq_zero a b 0 0, by simp, by simp⟩
  | cons op rest =>
    obtain ⟨h1, h2, h3, h4, h5, h6, h7, h8⟩ := h
    by_cases heq : op.tag = Tag.equal
    · obtain ⟨hsz, hsl⟩ := h7.1 heq
      rw [h1, h2] at hsz hsl
      simp only [Nat.sub_zero] at hsz hsl
      have hij : op.i2 = op.j2 := by omega
      refine ⟨op.i2 - n, ?_, ?_, by omega, by omega⟩
      · rw [fixupHead, if_pos heq]
        have hmax1 : max op.i1 (op.i2 - n) = op.i2 - n := by rw [h1]; omega
        have hmax2 : max op.j1 (op.j2 - n) = op.j2 - n := by rw [h2]; omega
        refine ⟨by simp [hmax1], by simp [hmax2, hij],
          by show op.i2 - n ≤ op.i2; omega, by show op.i2 - n ≤ op.j2; omega,
          by simpa using h5, by simpa using h6,
          ⟨fun _ => ?_, fun hdel => (nomatch heq.symm.trans hdel),
            fun hins => (nomatch heq.symm.trans hins)⟩, by simpa using h8⟩
        simp only [hmax1, hmax2]
        constructor
        · omega
        · have hd : op.i2 - n + (op.i2 - (op.i2 - n)) = op.i2 := by omega
          have := slicesEq_sub hsl (d := op.i2 - n) (m := op.i2 - (op.i2 - n)) (by omega)
          simpa [hij] using this
      · have := slicesEq_sub hsl (d := 0) (m := op.i2 - n) (by omega)
        simpa using this
    · exact ⟨0, by rw [fixupHead, if_neg heq]; exact ⟨h1, h2, h3, h4, h5, h6, h7, h8⟩,
        slicesEq_zero a b 0 0, by simp, by simp⟩

/-- Trimming the trailing context keeps a chain, at the cost of an aligned
equal gap to the two ends. -/
theorem fixupLast_chain (n : Nat) {a b : List α} :
    ∀ {codes : List Opcode} {s t : Nat},
      GChain a b s t codes a.length b.length →
      ∃ e1 e2, GChain a b s t (fixupLast n codes) e1 e2 ∧ e1 ≤ a.length ∧ e2 ≤ b.length ∧
        a.length - e1 = b.length - e2 ∧ SlicesEq a b e1 e2 (a.length - e1) := by
  intro codes
  induction codes with
  | nil =>
    intro s t h
    obtain ⟨rfl, rfl⟩ := h
    exact ⟨a.length, b.length, ⟨rfl, rfl⟩, le_refl _, le_refl _, by omega,
      by simpa using slicesEq_zero a b a.length b.length⟩
  | cons op rest ih =>
    intro s t h
    obtain ⟨h1, h2, h3, h4, h5, h6, h7, h8⟩ := h
    cases rest with
    | nil =>
      obtain ⟨he1, he2⟩ := h8
      by_cases heq : op.tag = Tag.equal
      · obtain ⟨hsz, hsl⟩ := h7.1 heq
        refine ⟨min op.i2 (op.i1 + n), min op.j2 (op.j1 + n), ?_, by omega, by omega,
          by omega, ?_⟩
        · rw [fixupLast, if_pos heq]
          refine ⟨by simpa using h1, by simpa using h2, by simp; omega, by simp; omega,
            by simp; omega, by simp; omega,
            ⟨fun _ => ?_, fun hdel => (nomatch heq.symm.trans hdel),
              fun hins => (nomatch heq.symm.trans hins)⟩, by constructor <;> simp⟩
          simp only []
          constructor
          · omega
          · have := slicesEq_sub hsl (d := 0) (m := min op.i2 (op.i1 + n) - op.i1) (by omega)
            simpa using this
        · have hoff : op.i1 + (min op.i2 (op.i1 + n) - op.i1) = min op.i2 (op.i1 + n) := by
            omega
          have hoffb : op.j1 + (min op.i2 (op.i1 + n) - op.i1) = min op.j2 (op.j1 + n) := by
            omega
          have := slicesEq_sub hsl (d := min op.i2 (op.i1 + n) - op.i1)
            (m := a.length - min op.i2 (op.i1 + n)) (by omega)
          rw [hoff, hoffb] at this
          exact this
      · refine ⟨a.length, b.length, ?_, le_refl _, le_refl _, by omega,
          by simpa using slicesEq_zero a b a.length b.length⟩
        rw [fixupLast, if_neg heq]
        exact ⟨h1, h2, h3, h4, h5, h6, h7, he1, he2⟩
    | cons op2 rest2 =>
      obtain ⟨e1, e2, hchain, hb1, hb2, hgap, hslg⟩ := ih h8
      exact ⟨e1, e2, ⟨h1, h2, h3, h4, h5, h6, h7, hchain⟩, hb1, hb2, hgap, hslg⟩

/-- Chained groups with aligned equal gaps between them, before the first
and after the last: the shape `get_grouped_opcodes` guarantees and the
patch interpreter consumes. -/
def GroupsChain (a b : List α) : Nat → Nat → List (List Opcode) → Prop
  | p, q, [] => p ≤ a.length ∧ q ≤ b.length ∧ a.length - p = b.length - q ∧
      SlicesEq a b p q (a.length - p)
  | p, q, g :: gs => ∃ s t e1 e2,
      g ≠ [] ∧ GChain a b s t g e1 e2 ∧
      p ≤ s ∧ q ≤ t ∧ s - p = t - q ∧ s ≤ a.length ∧ t ≤ b.length ∧
      SlicesEq a b p q (s - p) ∧
      GroupsChain a b e1 e2 gs

/-- The group-splitting loop of `get_grouped_opcodes` emits gap-aligned
chained groups: the pending group is chained from `(s, t)` to `(ci, cj)`,
the pending opcodes continue from there to `(E1, E2)`, an aligned equal
gap precedes the group, and an aligned equal gap follows `(E1, E2)` to the
ends of both sequences. -/
theorem groupSplitGo_chain (n : Nat) {a b : List α} :
    ∀ (codes group : List Opcode) (p q s t ci cj E1 E2 : Nat),
      GChain a b s t group ci cj →
      GChain a b ci cj codes E1 E2 →
      p ≤ s → q ≤ t → s - p = t - q → s ≤ a.length → t ≤ b.length →
      SlicesEq a b p q (s - p) →
      E1 ≤ a.length → E2 ≤ b.length → a.length - E1 = b.length - E2 →
      SlicesEq a b E1 E2 (a.length - E1) →
      GroupsChain a b p q (groupSplitGo n group codes) := by
  intro codes
  induction codes with
  | nil =>
    intro group p q s t ci cj E1 E2 hgroup hcodes hps hqt hgap hsla htlb hgsl
      hE1 hE2 hEgap hEsl
    obtain ⟨rfl, rfl⟩ := hcodes
    cases group with
    | nil =>
      obtain ⟨rfl, rfl⟩ := hgroup
      rw [groupSplitGo]
      refine ⟨by omega, by omega, by omega, ?_⟩
      have hlen : a.length - p = (s - p) + (a.length - s) := by omega
      rw [hlen]
      refine slicesEq_append hgsl ?_
      have hpa : p + (s - p) = s := by omega
      have hqb : q + (s - p) = t := by omega
      rw [hpa, hqb]
      have hlen2 : a.length - s = b.length - t := hEgap
      exact hEsl
    | cons g1 grest =>
      cases grest with
      | nil =>
        obtain ⟨hg1, hg2, hg3, hg4, hg5, hg6, hg7, hg8⟩ := hgroup
        obtain ⟨he1, he2⟩ := hg8
        rw [groupSplitGo]
        by_cases heq : g1.tag = Tag.equal
        · rw [if_pos heq]
          obtain ⟨hsz, hsl⟩ := hg7.1 heq
          refine ⟨by omega, by omega, by omega, ?_⟩
          have hlen : a.length - p = (s - p) + ((g1.i2 - g1.i1) + (a.length - g1.i2)) := by
            omega
          rw [hlen]
          refine slicesEq_append hgsl ?_
          have hpa : p + (s - p) = g1.i1 := by omega
          have hqb : q + (s - p) = g1.j1 := by omega
          rw [hpa, hqb]
          refine slicesEq_append hsl ?_
          have hpa2 : g1.i1 + (g1.i2 - g1.i1) = g1.i2 := by omega
          have hqb2 : g1.j1 + (g1.i2 - g1.i1) = g1.j2 := by omega
          rw [hpa2, hqb2, he1, he2]
          exact hEsl
        · rw [if_neg heq]
          exact ⟨s, t, ci, cj, List.cons_ne_nil g1 [],
            ⟨hg1, hg2, hg3, hg4, hg5, hg6, hg7, he1, he2⟩,
            hps, hqt, hgap, hsla, htlb, hgsl, by omega, by omega, hEgap, hEsl⟩
      | cons g2 grest2 =>
        rw [groupSplitGo]
        · exact ⟨s, t, ci, cj, List.cons_ne_nil g1 (g2 :: grest2), hgroup,
            hps, hqt, hgap, hsla, htlb, hgsl, hE1, hE2, hEgap, hEsl⟩
        · intro h
          exact absurd h (List.cons_ne_nil _ _)
        · intro op h
          simp at h
  | cons op rest ih =>
    intro group p q s t ci cj E1 E2 hgroup hcodes hps hqt hgap hsla htlb hgsl
      hE1 hE2 hEgap hEsl
    obtain ⟨ho1, ho2, ho3, ho4, ho5, ho6, ho7, ho8⟩ := hcodes
    rw [groupSplitGo]
    by_cases hsplit : op.tag = Tag.equal ∧ 2 * n < op.i2 - op.i1
    · rw [if_pos hsplit]
      obtain ⟨hsz, hsl⟩ := ho7.1 hsplit.1
      have hd : 2 * n < op.i2 - op.i1 := hsplit.2
      have hminL : min op.i2 (op.i1 + n) = op.i1 + n := by omega
      have hminLb : min op.j2 (op.j1 + n) = op.j1 + n := by omega
      have hmaxR : max op.i1 (op.i2 - n) = op.i2 - n := by omega
      have hmaxRb : max op.j1 (op.j2 - n) = op.j2 - n := by omega
      have htrimL : GChain a b ci cj
          [{ op with i2 := min op.i2 (op.i1 + n), j2 := min op.j2 (op.j1 + n) }]
          (op.i1 + n) (op.j1 + n) := by
        rw [hminL, hminLb, show ci = op.i1 from ho1.symm, show cj = op.j1 from ho2.symm]
        exact gchain_single op.tag op.i1 (op.i1 + n) op.j1 (op.j1 + n)
          (by omega) (by omega) (by omega) (by omega)
          ⟨fun _ => ⟨by show op.i1 + n - op.i1 = op.j1 + n - op.j1; omega, by
            have := slicesEq_sub hsl (d := 0) (m := op.i1 + n - op.i1) (by omega)
            simpa using this⟩,
          fun hdel => (nomatch hsplit.1.symm.trans hdel),
          fun hins => (nomatch hsplit.1.symm.trans hins)⟩
      refine ⟨s, t, op.i1 + n, op.j1 + n, by simp, gchain_append hgroup htrimL,
        hps, hqt, hgap, hsla, htlb, hgsl, ?_⟩
      have htrimR : GChain a b (op.i2 - n) (op.j2 - n)
          [{ op with i1 := max op.i1 (op.i2 - n), j1 := max op.j1 (op.j2 - n) }]
          op.i2 op.j2 := by
        rw [hmaxR, hmaxRb]
        exact gchain_single op.tag (op.i2 - n) op.i2 (op.j2 - n) op.j2
          (by omega) (by omega) (by omega) (by omega)
          ⟨fun _ => ⟨by show op.i2 - (op.i2 - n) = op.j2 - (op.j2 - n); omega, by
            have := slicesEq_sub hsl (d := op.i2 - n - op.i1)
              (m := op.i2 - (op.i2 - n)) (by omega)
            have hib : op.i1 + (op.i2 - n - op.i1) = op.i2 - n := by omega
            have hjb : op.j1 + (op.i2 - n - op.i1) = op.j2 - n := by omega
            have hm : op.i2 - (op.i2 - n) = n := by omega
            rw [hib, hjb, hm] at this
            have hgoal : op.i2 - (op.i2 - n) = n := by omega
            rw [hgoal]
            exact this⟩,
          fun hdel => (nomatch hsplit.1.symm.trans hdel),
          fun hins => (nomatch hsplit.1.symm.trans hins)⟩
      refine ih _ (op.i1 + n) (op.j1 + n) (op.i2 - n) (op.j2 - n) op.i2 op.j2 E1 E2
        htrimR ho8 (by omega) (by omega) (by omega) (by omega) (by omega) ?_
        hE1 hE2 hEgap hEsl
      have := slicesEq_sub hsl (d := n) (m := (op.i2 - n) - (op.i1 + n)) (by omega)
      have hib : op.i1 + n + ((op.i2 - n) - (op.i1 + n)) = op.i2 - n := by omega
      simpa using this
    · rw [if_neg hsplit]
      have hsingle : GChain a b ci cj [op] op.i2 op.j2 := by
        rw [show ci = op.i1 from ho1.symm, show cj = op.j1 from ho2.symm]
        exact gchain_single op.tag op.i1 op.i2 op.j1 op.j2
          (by omega) (by omega) ho5 ho6 ho7
      exact ih (group ++ [op]) p q s t op.i2 op.j2 E1 E2
        (gchain_append hgroup hsingle) ho8 hps hqt hgap hsla htlb hgsl
        hE1 hE2 hEgap hEsl

/-- The grouped opcodes of two distinct sequences form a gap-aligned group
chain from the origin. -/
theorem grouped_opcodes_chain {a b : List α} (hne : a ≠ b) (n : Nat) :
    GroupsChain a b 0 0 (get_grouped_opcodes n a b) := by
  have hcodes := get_opcodes_gchain a b
  have hnonempty : ¬ (get_opcodes a b).isEmpty = true := by
    intro h
    rw [List.isEmpty_iff] at h
    rw [h] at hcodes
    obtain ⟨ha, hb⟩ := hcodes
    apply hne
    have ha' : a = [] := List.length_eq_zero.mp ha.symm
    have hb' : b = [] := List.length_eq_zero.mp hb.symm
    rw [ha', hb']
  rw [get_grouped_opcodes]
  simp only [hnonempty, if_false]
  obtain ⟨s0, hhead, hheadsl, hs0a, hs0b⟩ := fixupHead_chain n hcodes
  obtain ⟨e1, e2, hlast, he1, he2, hegap, hesl⟩ := fixupLast_chain n hhead
  exact groupSplitGo_chain n _ [] 0 0 s0 s0 s0 s0 e1 e2 gchain_nil hlast
    (by omega) (by omega) (by omega) hs0a hs0b (by simpa using hheadsl)
    he1 he2 hegap hesl

end MatcherCorrectness

/-! ### The patch interpreter undoes the rendered diff -/

section ApplyCorrectness

theorem string_toList_append (s t : String) : (s ++ t).toList = s.toList ++ t.toList := by
  show (s ++ t).data = s.data ++ t.data
  exact String.data_append s t

theorem singleton_toList (c : Char) : (String.singleton c).toList = [c] := rfl

theorem digit_ofNat_isDigit {n : Nat} (h : n < 10) : (Char.ofNat (48 + n)).isDigit = true := by
  interval_cases n <;> decide

theorem digit_ofNat_toNat {n : Nat} (h : n < 10) : (Char.ofNat (48 + n)).toNat = 48 + n := by
  interval_cases n <;> decide

theorem isDigit_ne_comma {c : Char} (h : c.isDigit = true) : c ≠ ',' := by
  intro hc
  rw [hc] at h
  exact absurd h (by decide)

theorem isDigit_ne_space {c : Char} (h : c.isDigit = true) : c ≠ ' ' := by
  intro hc
  rw [hc] at h
  exact absurd h (by decide)

/-- Every prefix kept: `takeWhile` of an all-true list is the list. -/
theorem takeWhile_all {β : Type} {p : β → Bool} :
    ∀ {l : List β}, (∀ c ∈ l, p c = true) → l.takeWhile p = l := by
  intro l
  induction l with
  | nil => intro _; rfl
  | cons c cs ih =>
    intro h
    rw [List.takeWhile_cons_of_pos (h c (by simp)), ih (fun x hx => h x (by simp [hx]))]

/-- Everything dropped: `dropWhile` of an all-true list is empty. -/
theorem dropWhile_all {β : Type} {p : β → Bool} :
    ∀ {l : List β}, (∀ c ∈ l, p c = true) → l.dropWhile p = [] := by
  intro l
  induction l with
  | nil => intro _; rfl
  | cons c cs ih =>
    intro h
    rw [List.dropWhile_cons_of_pos (h c (by simp))]
    exact ih (fun x hx => h x (by simp [hx]))

/-- `takeWhile` stops exactly at the first failing element. -/
theorem takeWhile_append_stop {β : Type} {p : β → Bool} {c : β} (hc : p c = false) :
    ∀ {l : List β} (r : List β), (∀ x ∈ l, p x = true) →
      (l ++ c :: r).takeWhile p = l := by
  intro l
  induction l with
  | nil =>
    intro r _
    rw [List.nil_append, List.takeWhile_cons_of_neg (by simp [hc])]
  | cons a l ih =>
    intro r h
    rw [List.cons_append, List.takeWhile_cons_of_pos (h a (by simp)),
      ih r (fun x hx => h x (by simp [hx]))]

/-- `dropWhile` keeps exactly the first failing element and its tail. -/
theorem dropWhile_append_stop {β : Type} {p : β → Bool} {c : β} (hc : p c = false) :
    ∀ {l : List β} (r : List β), (∀ x ∈ l, p x = true) →
      (l ++ c :: r).dropWhile p = c :: r := by
  intro l
  induction l with
  | nil =>
    intro r _
    rw [List.nil_append, List.dropWhile_cons_of_neg (by simp [hc])]
  | cons a l ih =>
    intro r h
    rw [List.cons_append, List.dropWhile_cons_of_pos (h a (by simp))]
    exact ih r (fun x hx => h x (by simp [hx]))

/-- The digit-accumulating fold of `parseNatChars` succeeds on all-digit
input and computes the base-10 fold of the digit values. -/
theorem foldl_parse_digits :
    ∀ (cs : List Char) (acc : Nat), (∀ c ∈ cs, c.isDigit = true) →
      cs.foldl (fun acc c =>
        match acc with
        | none => none
        | some v => if c.isDigit then some (v * 10 + (c.toNat - 48)) else none)
        (some acc)
      = some (cs.foldl (fun v c => v * 10 + (c.toNat - 48)) acc) := by
  intro cs
  induction cs with
  | nil => intro acc _; rfl
  | cons c cs ih =>
    intro acc h
    simp only [List.foldl_cons, h c (by simp), if_true]
    exact ih _ (fun x hx => h x (by simp [hx]))

/-- The decimal rendering of `n < fuel` is a nonempty digit string whose
base-10 fold starting from `acc` yields `acc * 10 ^ digits + n`. -/
theorem natReprGo_spec :
    ∀ (fuel n : Nat), n < fuel →
      (natReprGo fuel n).toList ≠ [] ∧
      (∀ c ∈ (natReprGo fuel n).toList, c.isDigit = true) ∧
      ∀ acc : Nat, (natReprGo fuel n).toList.foldl (fun v c => v * 10 + (c.toNat - 48)) acc
        = acc * 10 ^ (natReprGo fuel n).toList.length + n := by
  intro fuel
  induction fuel with
  | zero => intro n h; omega
  | succ fuel ih =>
    intro n h
    rw [natReprGo]
    by_cases h10 : n < 10
    · rw [if_pos h10]
      rw [singleton_toList]
      refine ⟨by simp, ?_, ?_⟩
      · intro c hc
        rw [List.mem_singleton] at hc
        rw [hc]
        exact digit_ofNat_isDigit h10
      · intro acc
        simp only [List.foldl_cons, List.foldl_nil, List.length_cons, List.length_nil,
          digit_ofNat_toNat h10, pow_one]
        omega
    · rw [if_neg h10]
      have hlt : n / 10 < fuel := by omega
      obtain ⟨hne, hdigs, hval⟩ := ih (n / 10) hlt
      rw [string_toList_append, singleton_toList]
      have hm10 : n % 10 < 10 := Nat.mod_lt _ (by omega)
      refine ⟨by simp, ?_, ?_⟩
      · intro c hc
        rw [List.mem_append] at hc
        cases hc with
        | inl hc => exact hdigs c hc
        | inr hc =>
          rw [List.mem_singleton] at hc
          rw [hc]
          exact digit_ofNat_isDigit hm10
      · intro acc
        rw [List.foldl_append, hval acc]
        simp only [List.foldl_cons, List.foldl_nil, digit_ofNat_toNat hm10,
          List.length_append, List.length_cons, List.length_nil]
        have h48 : 48 + n % 10 - 48 = n % 10 := by omega
        have hp : 10 ^ ((natReprGo fuel (n / 10)).toList.length + (0 + 1))
            = 10 ^ (natReprGo fuel (n / 10)).toList.length * 10 := by
          rw [pow_succ]
        rw [h48, hp]
        have hdm : 10 * (n / 10) + n % 10 = n := Nat.div_add_mod n 10
        have hmul : acc * (10 ^ (natReprGo fuel (n / 10)).toList.length * 10)
            = acc * 10 ^ (natReprGo fuel (n / 10)).toList.length * 10 := by ring
        rw [hmul]
        omega

/-- All characters of `natRepr n` are decimal digits. -/
theorem natRepr_digits (n : Nat) : ∀ c ∈ (natRepr n).toList, c.isDigit = true :=
  (natReprGo_spec (n + 1) n (by omega)).2.1

/-- Parsing the decimal rendering of `n` gives back `n`. -/
theorem parseNatChars_natRepr (n : Nat) : parseNatChars (natRepr n).toList = some n := by
  obtain ⟨hne, hdig, hval⟩ := natReprGo_spec (n + 1) n (by omega)
  rw [natRepr]
  cases hcs : (natReprGo (n + 1) n).toList with
  | nil => exact absurd hcs hne
  | cons c cs =>
    rw [hcs] at hdig hval
    have hfold := foldl_parse_digits (c :: cs) 0 hdig
    have hv := hval 0
    simp only [zero_mul, zero_add] at hv
    simp only [parseNatChars, hfold, hv]

/-- A bare decimal range parses as `(value, 1)`. -/
theorem parseRangeChars_natRepr (m : Nat) :
    parseRangeChars (natRepr m).toList = some (m, 1) := by
  have hall : ∀ c ∈ (natRepr m).toList, (fun c => decide (c ≠ ',')) c = true :=
    fun c hc => decide_eq_true (isDigit_ne_comma (natRepr_digits m c hc))
  rw [parseRangeChars]
  rw [dropWhile_all hall, takeWhile_all hall]
  rw [parseNatChars_natRepr]
  rfl

/-- A `start,count` pair of decimal renderings parses back to the pair. -/
theorem parseRangeChars_pair (u v : Nat) :
    parseRangeChars (natRepr u ++ "," ++ natRepr v).toList = some (u, v) := by
  have htl : (natRepr u ++ "," ++ natRepr v).toList
      = (natRepr u).toList ++ ',' :: (natRepr v).toList := by
    rw [string_toList_append, string_toList_append]
    rw [List.append_assoc]
    rfl
  have hallu : ∀ c ∈ (natRepr u).toList, (fun c => decide (c ≠ ',')) c = true :=
    fun c hc => decide_eq_true (isDigit_ne_comma (natRepr_digits u c hc))
  have hcomma : (fun c => decide (c ≠ ',')) ',' = false := by decide
  rw [parseRangeChars, htl]
  rw [dropWhile_append_stop (p := fun c => decide (c ≠ ',')) hcomma _ hallu,
    takeWhile_append_stop (p := fun c => decide (c ≠ ',')) hcomma _ hallu]
  simp only [parseNatChars_natRepr]

/-- Inversion of `_format_range_unified`: the rendered `a`-range parses to a
pair whose decoded zero-based start (`x` if the count is `0`, else `x - 1`)
is the range's start. -/
theorem parseRange_formatRangeUnified (s e : Nat) :
    ∃ x y, parseRangeChars (formatRangeUnified s e).toList = some (x, y) ∧
      (if y = 0 then x else x - 1) = s := by
  rw [formatRangeUnified]
  by_cases h1 : e - s = 1
  · rw [if_pos h1]
    exact ⟨s + 1, 1, parseRangeChars_natRepr (s + 1), by simp⟩
  · rw [if_neg h1]
    by_cases h0 : e - s = 0
    · rw [if_pos h0]
      refine ⟨s + 1 - 1, e - s, parseRangeChars_pair (s + 1 - 1) (e - s), ?_⟩
      rw [if_pos h0]
      omega
    · rw [if_neg h0]
      refine ⟨s + 1, e - s, parseRangeChars_pair (s + 1) (e - s), ?_⟩
      rw [if_neg h0]
      omega

/-- No character of a rendered range is a space. -/
theorem formatRange_no_space (s e : Nat) :
    ∀ c ∈ (formatRangeUnified s e).toList, (fun c => decide (c ≠ ' ')) c = true := by
  rw [formatRangeUnified]
  by_cases h1 : e - s = 1
  · rw [if_pos h1]
    exact fun c hc => decide_eq_true (isDigit_ne_space (natRepr_digits (s + 1) c hc))
  · rw [if_neg h1]
    intro c hc
    rw [string_toList_append, string_toList_append, List.append_assoc,
      show ("," : String).toList ++ (natRepr (e - s)).toList
        = ',' :: (natRepr (e - s)).toList from rfl, List.mem_append] at hc
    cases hc with
    | inl hc =>
      exact decide_eq_true (isDigit_ne_space
        (natRepr_digits (if e - s = 0 then s + 1 - 1 else s + 1) c hc))
    | inr hc =>
      cases hc with
      | head => decide
      | tail _ hc =>
        exact decide_eq_true (isDigit_ne_space (natRepr_digits (e - s) c hc))

theorem mk_toList (s : String) : String.mk s.toList = s := rfl

theorem take_head {β : Type} (l : List β) (k : Nat) : (l.take (k + 1)).head? = l.head? := by
  cases l <;> simp [List.take_succ_cons]

/-- The heads of two matching nonempty slices agree. -/
theorem slicesEq_head {β : Type} {a b : List β} {i j k : Nat} (h : SlicesEq a b i j (k + 1)) :
    a.get? i = b.get? j := by
  have h' : (a.drop i).take (k + 1) = (b.drop j).take (k + 1) := h
  have := congrArg List.head? h'
  rw [take_head, take_head, List.head?_drop, List.head?_drop] at this
  rw [List.get?_eq_getElem?, List.get?_eq_getElem?]
  exact this

/-- The tails of two matching nonempty slices match. -/
theorem slicesEq_tail {β : Type} [DecidableEq β] {a b : List β} {i j k : Nat}
    (h : SlicesEq a b i j (k + 1)) : SlicesEq a b (i + 1) (j + 1) k := by
  have := slicesEq_sub h (d := 1) (m := k) (by omega)
  simpa using this

theorem take_concat_get {β : Type} {l : List β} {j : Nat} {x : β} (h : l.get? j = some x) :
    l.take (j + 1) = l.take j ++ [x] := by
  rw [List.take_succ]
  rw [List.get?_eq_getElem?] at h
  rw [h]
  rfl

/-- The last opcode of a nonempty chain ends at the chain's endpoint. -/
theorem gchain_getLast {β : Type} {a b : List β} :
    ∀ {g : List Opcode} {s t e1 e2 : Nat}, GChain a b s t g e1 e2 → g ≠ [] →
      ∃ last, g.getLast? = some last ∧ last.i2 = e1 ∧ last.j2 = e2 := by
  intro g
  induction g with
  | nil => intro s t e1 e2 _ hne; exact absurd rfl hne
  | cons op rest ih =>
    intro s t e1 e2 h _
    obtain ⟨_, _, _, _, _, _, _, h8⟩ := h
    cases rest with
    | nil =>
      obtain ⟨he1, he2⟩ := h8
      exact ⟨op, rfl, he1, he2⟩
    | cons op2 rest2 =>
      obtain ⟨last, hl, hi, hj⟩ := ih h8 (by simp)
      exact ⟨last, by rw [List.getLast?_cons_cons]; exact hl, hi, hj⟩

/-- Consuming a block of rendered `-` lines advances the cursor over the
matching old lines and leaves the accumulator unchanged. -/
theorem applyGo_minus (a : List String) :
    ∀ (k i : Nat) (rest acc : List String), i + k ≤ a.length →
      applyGo a (((a.drop i).take k).map (fun l => "-" ++ l) ++ rest) i acc
        = applyGo a rest (i + k) acc := by
  intro k
  induction k with
  | zero =>
    intro i rest acc _
    rw [List.take_zero, List.map_nil, List.nil_append, Nat.add_zero]
  | succ k ih =>
    intro i rest acc h
    have hi : i < a.length := by omega
    have hget : a.get? i = some a[i] := by
      rw [List.get?_eq_getElem?]
      exact List.getElem?_eq_getElem hi
    rw [List.drop_eq_getElem_cons hi, List.take_succ_cons, List.map_cons, List.cons_append]
    have hline : ("-" ++ a[i]).toList = '-' :: (a[i]).toList := by
      rw [string_toList_append]
      rfl
    simp only [applyGo, hline, hget]
    rw [mk_toList, if_pos rfl]
    rw [ih (i + 1) rest acc (by omega)]
    rw [show i + 1 + k = i + (k + 1) from by omega]

/-- Emitting a block of rendered `+` lines extends a `b`-prefix accumulator
by the corresponding `b` lines and leaves the cursor unchanged. -/
theorem applyGo_plus (a b : List String) :
    ∀ (k j cur : Nat) (rest : List String), j + k ≤ b.length →
      applyGo a (((b.drop j).take k).map (fun l => "+" ++ l) ++ rest) cur (b.take j)
        = applyGo a rest cur (b.take (j + k)) := by
  intro k
  induction k with
  | zero =>
    intro j cur rest _
    rw [List.take_zero, List.map_nil, List.nil_append, Nat.add_zero]
  | succ k ih =>
    intro j cur rest h
    have hj : j < b.length := by omega
    have hget : b.get? j = some b[j] := by
      rw [List.get?_eq_getElem?]
      exact List.getElem?_eq_getElem hj
    rw [List.drop_eq_getElem_cons hj, List.take_succ_cons, List.map_cons, List.cons_append]
    have hline : ("+" ++ b[j]).toList = '+' :: (b[j]).toList := by
      rw [string_toList_append]
      rfl
    simp only [applyGo, hline]
    rw [mk_toList, ← take_concat_get hget]
    rw [ih (j + 1) cur rest (by omega)]
    rw [show j + 1 + k = j + (k + 1) from by omega]

/-- Consuming a block of rendered context lines advances the cursor and
extends a `b`-prefix accumulator along the matching slice. -/
theorem applyGo_context (a b : List String) :
    ∀ (k i j : Nat) (rest : List String), SlicesEq a b i j k →
      i + k ≤ a.length → j + k ≤ b.length →
      applyGo a (((a.drop i).take k).map (fun l => " " ++ l) ++ rest) i (b.take j)
        = applyGo a rest (i + k) (b.take (j + k)) := by
  intro k
  induction k with
  | zero =>
    intro i j rest _ _ _
    rw [List.take_zero, List.map_nil, List.nil_append, Nat.add_zero, Nat.add_zero]
  | succ k ih =>
    intro i j rest hsl hia hjb
    have hi : i < a.length := by omega
    have hj : j < b.length := by omega
    have hgeta : a.get? i = some a[i] := by
      rw [List.get?_eq_getElem?]
      exact List.getElem?_eq_getElem hi
    have hgetb : b.get? j = some b[j] := by
      rw [List.get?_eq_getElem?]
      exact List.getElem?_eq_getElem hj
    have hab : a[i] = b[j] := by
      have := slicesEq_head hsl
      rw [hgeta, hgetb] at this
      exact Option.some.inj this
    rw [List.drop_eq_getElem_cons hi, List.take_succ_cons, List.map_cons, List.cons_append]
    have hline : (" " ++ a[i]).toList = ' ' :: (a[i]).toList := by
      rw [string_toList_append]
      rfl
    simp only [applyGo, hline, hgeta]
    rw [mk_toList, if_pos rfl]
    rw [show b.take j ++ [a[i]] = b.take (j + 1) from by rw [hab, ← take_concat_get hgetb]]
    rw [ih (i + 1) (j + 1) rest (slicesEq_tail hsl) (by omega) (by omega)]
    rw [show i + 1 + k = i + (k + 1) from by omega,
      show j + 1 + k = j + (k + 1) from by omega]

/-- One opcode's rendered body lines move the interpreter from the opcode's
start corner to its end corner. -/
theorem applyGo_op (a b : List String) (op : Opcode) (rest : List String)
    (h3 : op.i1 ≤ op.i2) (h4 : op.j1 ≤ op.j2) (h5 : op.i2 ≤ a.length)
    (h6 : op.j2 ≤ b.length) (h7 : OpFacts a b op) :
    applyGo a (opLines a b op ++ rest) op.i1 (b.take op.j1)
      = applyGo a rest op.i2 (b.take op.j2) := by
  cases hop : op.tag with
  | equal =>
    obtain ⟨hsz, hsl⟩ := h7.1 hop
    simp only [opLines, hop]
    rw [applyGo_context a b (op.i2 - op.i1) op.i1 op.j1 rest hsl (by omega) (by omega)]
    rw [show op.i1 + (op.i2 - op.i1) = op.i2 from by omega,
      show op.j1 + (op.i2 - op.i1) = op.j2 from by omega]
  | replace =>
    simp only [opLines, hop]
    rw [List.append_assoc]
    rw [applyGo_minus a (op.i2 - op.i1) op.i1 _ _ (by omega)]
    rw [show op.i1 + (op.i2 - op.i1) = op.i2 from by omega]
    rw [applyGo_plus a b (op.j2 - op.j1) op.j1 op.i2 rest (by omega)]
    rw [show op.j1 + (op.j2 - op.j1) = op.j2 from by omega]
  | delete =>
    have hj := h7.2.1 hop
    simp only [opLines, hop]
    rw [applyGo_minus a (op.i2 - op.i1) op.i1 _ _ (by omega)]
    rw [show op.i1 + (op.i2 - op.i1) = op.i2 from by omega, hj]
  | insert =>
    have hi := h7.2.2 hop
    simp only [opLines, hop]
    rw [applyGo_plus a b (op.j2 - op.j1) op.j1 op.i1 rest (by omega)]
    rw [show op.j1 + (op.j2 - op.j1) = op.j2 from by omega, hi]

/-- A chained group's rendered body lines move the interpreter from the
chain's start corner to its end corner. -/
theorem applyGo_ops (a b : List String) :
    ∀ (g : List Opcode) (i j e1 e2 : Nat) (rest : List String),
      GChain a b i j g e1 e2 →
      applyGo a ((g.map (opLines a b)).flatten ++ rest) i (b.take j)
        = applyGo a rest e1 (b.take e2) := by
  intro g
  induction g with
  | nil =>
    intro i j e1 e2 rest h
    obtain ⟨rfl, rfl⟩ := h
    rw [List.map_nil, List.flatten_nil, List.nil_append]
  | cons op g ih =>
    intro i j e1 e2 rest h
    obtain ⟨h1, h2, h3, h4, h5, h6, h7, h8⟩ := h
    rw [List.map_cons, List.flatten_cons, List.append_assoc, ← h1, ← h2]
    rw [applyGo_op a b op _ (by omega) (by omega) h5 h6 h7]
    exact ih op.i2 op.j2 e1 e2 rest h8

/-- A hunk header fast-forwards the interpreter from the current cursor to
the hunk's start, copying the skipped old lines. -/
theorem applyGo_hunk (a b : List String) (g : List Opcode) (rest : List String)
    (p q s t e1 e2 : Nat) (hg : g ≠ []) (hchain : GChain a b s t g e1 e2)
    (hp : p ≤ s) (hsa : s ≤ a.length) :
    applyGo a (hunkHeader g :: rest) p (b.take q)
      = applyGo a rest s (b.take q ++ (a.drop p).take (s - p)) := by
  obtain ⟨last, hlast, hl1, hl2⟩ := gchain_getLast hchain hg
  cases g with
  | nil => exact absurd rfl hg
  | cons op g2 =>
    obtain ⟨h1, h2, h3, h4, h5, h6, h7, h8⟩ := hchain
    have hH : hunkHeader (op :: g2)
        = "@@ -" ++ formatRangeUnified s e1 ++ " +" ++ formatRangeUnified t e2 ++ " @@" := by
      simp only [hunkHeader, List.head?_cons, hlast]
      rw [h1, h2, hl1, hl2]
    rw [hH]
    have l0 : ("@@ -" : String).toList = ['@', '@', ' ', '-'] := rfl
    have l1 : (" +" : String).toList = [' ', '+'] := rfl
    have l2 : (" @@" : String).toList = [' ', '@', '@'] := rfl
    have htl : ("@@ -" ++ formatRangeUnified s e1 ++ " +"
          ++ formatRangeUnified t e2 ++ " @@").toList
        = '@' :: '@' :: ' ' :: '-' :: ((formatRangeUnified s e1).toList
            ++ ' ' :: '+' :: ((formatRangeUnified t e2).toList ++ [' ', '@', '@'])) := by
      rw [string_toList_append, string_toList_append, string_toList_append,
        string_toList_append, l0, l1, l2]
      simp [List.append_assoc]
    have hspace : (fun c => decide (c ≠ ' ')) ' ' = false := by decide
    have htake : ((formatRangeUnified s e1).toList
          ++ ' ' :: '+' :: ((formatRangeUnified t e2).toList ++ [' ', '@', '@'])).takeWhile
            (fun c => decide (c ≠ ' '))
        = (formatRangeUnified s e1).toList :=
      takeWhile_append_stop (p := fun c => decide (c ≠ ' ')) hspace _
        (formatRange_no_space s e1)
    obtain ⟨x, y, hparse, hstart⟩ := parseRange_formatRangeUnified s e1
    simp only [applyGo, htl, htake, hparse, hstart]
    rw [if_pos ⟨hp, hsa⟩]

/-- Gap-aligned chained groups replay the whole file: starting from an
aligned cursor pair, interpreting all rendered hunks rebuilds `b`. -/
theorem applyGo_groups (a b : List String) :
    ∀ (groups : List (List Opcode)) (p q : Nat), GroupsChain a b p q groups →
      applyGo a ((groups.map
          (fun g => hunkHeader g :: (g.map (opLines a b)).flatten)).flatten)
        p (b.take q) = some b := by
  intro groups
  induction groups with
  | nil =>
    intro p q h
    obtain ⟨hpa, hqb, hgap, hsl⟩ := h
    rw [List.map_nil, List.flatten_nil, applyGo, if_pos hpa]
    congr 1
    have hdp : a.drop p = (b.drop q).take (a.length - p) := by
      have h1 : (a.drop p).take (a.length - p) = a.drop p :=
        List.take_of_length_le (by rw [List.length_drop])
      rw [← h1]
      exact hsl
    have h2 : ((b.drop q).take (b.length - q) : List String) = b.drop q :=
      List.take_of_length_le (by rw [List.length_drop])
    rw [hdp, hgap, h2]
    exact List.take_append_drop q b
  | cons g gs ih =>
    intro p q h
    obtain ⟨s, t, e1, e2, hgne, hchain, hps, hqt, hgap, hsa, htb, hsl, hrest⟩ := h
    rw [List.map_cons, List.flatten_cons, List.cons_append]
    rw [applyGo_hunk a b g _ p q s t e1 e2 hgne hchain hps hsa]
    have hacc : b.take q ++ (a.drop p).take (s - p) = b.take t := by
      rw [show ((a.drop p).take (s - p) : List String)
          = (b.drop q).take (s - p) from hsl]
      rw [show s - p = t - q from hgap, ← List.take_add]
      rw [show q + (t - q) = t from by omega]
    rw [hacc]
    rw [applyGo_ops a b g s t e1 e2 _ hchain]
    exact ih e1 e2 hrest

/-- A trivial group chain at the origin forces the two sequences to be
equal. -/
theorem groupsChain_nil_eq {a b : List String} (h : GroupsChain a b 0 0 []) : a = b := by
  obtain ⟨_, _, hgap, hsl⟩ := h
  have h1 : (a.drop 0).take (a.length - 0) = (b.drop 0).take (a.length - 0) := hsl
  simp only [List.drop_zero, Nat.sub_zero] at h1 hgap
  rw [List.take_length] at h1
  rw [h1, hgap, List.take_length]

end ApplyCorrectness

/-- C7: for every pair of old and new line lists of a changed file
(`old_lines ≠ new_lines`), `generate_diff` produces exactly the
newline-joined lines of `unified_diff old new ("a/"++name) ("b/"++name)`,
and applying those unified-diff lines to the old lines reproduces the new
lines exactly. -/
theorem claim_C7_diff_roundtrip (old_lines new_lines : List String) (name : String)
    (hne : old_lines ≠ new_lines) :
    generate_diff old_lines new_lines name
      = some (String.intercalate "\n"
          (unified_diff old_lines new_lines ("a/" ++ name) ("b/" ++ name)))
    ∧ applyUnifiedDiff old_lines
        (unified_diff old_lines new_lines ("a/" ++ name) ("b/" ++ name))
      = some new_lines := by
  have hgc := grouped_opcodes_chain hne 3
  have hempty : (get_grouped_opcodes 3 old_lines new_lines).isEmpty = false := by
    cases hg : get_grouped_opcodes 3 old_lines new_lines with
    | nil =>
      rw [hg] at hgc
      exact absurd (groupsChain_nil_eq hgc) hne
    | cons x xs => rfl
  have hud : unified_diff old_lines new_lines ("a/" ++ name) ("b/" ++ name)
      = ("--- " ++ ("a/" ++ name)) :: ("+++ " ++ ("b/" ++ name)) ::
        ((get_grouped_opcodes 3 old_lines new_lines).map
          (fun g => hunkHeader g :: (g.map (opLines old_lines new_lines)).flatten)).flatten := by
    rw [unified_diff]
    rw [if_neg (by rw [hempty]; exact Bool.false_ne_true)]
    rfl
  constructor
  · have hne2 : (unified_diff old_lines new_lines
        ("a/" ++ name) ("b/" ++ name)).isEmpty = false := by
      rw [hud]
      rfl
    rw [generate_diff]
    rw [if_neg (by rw [hne2]; exact Bool.false_ne_true)]
  · rw [hud]
    show applyGo old_lines _ 0 [] = some new_lines
    exact applyGo_groups old_lines new_lines _ 0 0 hgc

/-- Concrete round trip: the unified diff from `["a"]` to `["b"]` applies
back to give `["b"]`. -/
theorem claim_C7_diff_roundtrip_witness :
    (["a"] : List String) ≠ ["b"] ∧
    (generate_diff ["a"] ["b"] "f.py"
        = some (String.intercalate "\n"
            (unified_diff ["a"] ["b"] ("a/" ++ "f.py") ("b/" ++ "f.py")))
      ∧ applyUnifiedDiff ["a"] (unified_diff ["a"] ["b"] ("a/" ++ "f.py") ("b/" ++ "f.py"))
        = some ["b"]) :=
  ⟨by decide, claim_C7_diff_roundtrip ["a"] ["b"] "f.py" (by decide)⟩

/-- Sample event: four whitespace-separated words, so its serialization has
four words and its estimate is `2 * 4 / 7 = 1`. -/
def sampleEvent : Json := Json.str "a b c d"

/-- Witness for C3 at concrete inputs: flattening a two-element split,
an oversized item alone in its chunk at limit 0, and two identical items of
estimate 1 at limit 1 giving two singleton chunks. -/
theorem claim_C3_chunker_invariants_witness :
    ((split_json_by_token_limit [sampleEvent, Json.null] 5).flatten = [sampleEvent, Json.null])
  ∧ ([sampleEvent] = [sampleEvent])
  ∧ (split_json_by_token_limit (List.replicate 2 sampleEvent) 1 = List.replicate 2 [sampleEvent]) := by
  refine ⟨claim_C3_chunker_invariants.1 [sampleEvent, Json.null] 5, ?_, ?_⟩
  · have hmem : [sampleEvent] ∈ split_json_by_token_limit [sampleEvent] 0 := by
      have : split_json_by_token_limit [sampleEvent] 0 = [[], [sampleEvent]] := rfl
      rw [this]
      exact List.Mem.tail _ (List.Mem.head _)
    exact claim_C3_chunker_invariants.2.1 [sampleEvent] 0 [sampleEvent] hmem sampleEvent
      (List.Mem.head _) (by decide)
  · exact claim_C3_chunker_invariants.2.2 sampleEvent 2 1 (by decide) (by decide)

/-- Claim C4 (code bug): the code's token estimate divides the number of
whitespace-delimited words by 3.5, while its own comment ("1 token ≈ 3.5
characters") and the specification divide the number of characters by 3.5.
On an event serializing to a 37-character single word, the code computes 0
tokens while the documented formula gives 10. -/
theorem claim_C4_estimate_divergence :
    itemTokens (Json.str (String.mk (List.replicate 35 'a'))) = 0
  ∧ itemTokensSpec (Json.str (String.mk (List.replicate 35 'a'))) = 10
  ∧ (dumps (Json.str (String.mk (List.replicate 35 'a')))).length = 37 := by
  exact ⟨rfl, rfl, rfl⟩

end Yves
